import Mathlib

/-!
Verification development for the BAPCtools validator core.

The definitions below are a shallow embedding of two C++ sources:

* `src/headers/validation.h` — the `Validator` class: its tokenizer
  (whitespace-strict mode), scalar integer parser, constraint monitor
  (`log_constraint`, `check_number`), generator mode (`gen_number`,
  `gen_numbers`, `Random::shuffle`, the rejection-sampling
  `UniformGenerator`), destructor / exit-code protocol, and a small deep
  embedding of caller programs (sequences of `read_*` / separator calls)
  used to state the generator/reader round-trip.

* `src/support/default_output_validator.cpp` — the token-diff output
  validator: its tokenizer, `token_view` predicates, and `check`.

Machine integers (`long long`) are modelled as `Int` together with the
explicit bounds `int64Min`/`int64Max`; the places where the C++ computes in
64-bit unsigned arithmetic (`UniformGenerator`) are modelled with `Nat`
values below `2^64`.  `long double` values that reach a comparison are
modelled as exact rationals (`ℚ`); binary rounding of `stold` and of the
fixed-format printing is abstracted, and no theorem below depends on it.
Process exit / `WA` is modelled with `Except`/`Option` results.
-/

namespace BAPC


/-! ## Whitespace and digits

`validation.h` relies on the classic-locale `isspace` (via `operator>>`
and explicit `isspace` calls); `default_output_validator.cpp` defines
`WHITESPACE = " \f\n\r\t\v"`.  Both denote the same six characters. -/

/-- The six whitespace characters of `WHITESPACE` / classic `isspace`. -/
def wsChars : List Char := [' ', '\x0c', '\n', '\r', '\t', '\x0b']

/-- `util::is_space` / `isspace` on the byte range the validator reads. -/
def isWS (c : Char) : Bool := wsChars.contains c

/-- Decimal digit test, `'0' <= c && c <= '9'`. -/
def isDigit (c : Char) : Bool := '0' ≤ c && c ≤ '9'

/-- Numeric value of a digit character. -/
def digitVal (c : Char) : Nat := c.toNat - 48

/-- Character for a digit value (`'0' + d`). -/
def digitChar (d : Nat) : Char := Char.ofNat (48 + d)

/-- Value of a digit string read left to right (how `std::from_chars`
accumulates the magnitude). -/
def foldDigits (l : List Char) : Nat := l.foldl (fun a c => 10 * a + digitVal c) 0

/-- Smallest `long long`. -/
def int64Min : Int := -(2 ^ 63)

/-- Largest `long long`. -/
def int64Max : Int := 2 ^ 63 - 1

/-- Decimal representation of a `Nat`, as printed by `operator<<`. -/
def natRepr (n : Nat) : List Char :=
  if n = 0 then ['0'] else ((Nat.digits 10 n).map digitChar).reverse

/-- Decimal representation of a `long long`, as printed by
`out << (long long)v`. -/
def intRepr (v : Int) : List Char :=
  if v < 0 then '-' :: natRepr v.natAbs else natRepr v.toNat

/-! ## `std::from_chars` for `long long`

`Validator::read_integer(name)` calls
`std::from_chars(begin, end, v)` and then inspects `ptr` and `ec`.
`from_chars` for a signed integer matches the pattern `-?[0-9]+` greedily:
no digits gives `invalid_argument` with `ptr = begin`; a value outside
the `long long` range gives `result_out_of_range` with `ptr` past the
matched digits. -/

inductive Errc where
  | ok
  | invalidArgument
  | resultOutOfRange
deriving DecidableEq, Repr

structure FCRes where
  value : Int
  consumed : Nat
  ec : Errc
deriving DecidableEq, Repr

def fromChars (s : List Char) : FCRes :=
  let neg := s.headI = '-'
  let t := if neg then s.tail else s
  let ds := t.takeWhile isDigit
  if ds = [] then ⟨0, 0, .invalidArgument⟩
  else
    let m : Nat := foldDigits ds
    let v : Int := if neg then -(m : Int) else (m : Int)
    let consumed := (if neg then 1 else 0) + ds.length
    if v < int64Min ∨ int64Max < v then ⟨0, consumed, .resultOutOfRange⟩
    else ⟨v, consumed, .ok⟩

/-! ## `Validator::read_integer` (token grammar)

The private `read_integer(name)` receives one whitespace-delimited token
and enforces the strict integer grammar.  The error constructors mirror
the distinct `WA(...)` calls of the source (the two `catch` blocks are
dead code, since `from_chars` reports through `ec` and never throws). -/

inductive IntErr where
  /-- `Want integer, found nothing` -/
  | foundNothing
  /-- `Parsing ... as long long failed! Did not process all characters`
  (raised when `ptr != end` or `ec != errc{}`; the carried code records
  which `from_chars` condition fired) -/
  | notProcessed (ec : Errc)
  /-- `Parsed 0, but has leading 0 or minus sign` -/
  | leadingZeroOrMinus
  /-- `Parsed v, but has leading 0` (positive case) -/
  | leadingZeroPos
  /-- `Parsed v, but string is` (negative with length <= 1; unreachable) -/
  | negShort
  /-- `Parsed v, but has leading 0` (negative case) -/
  | leadingZeroNeg
deriving DecidableEq, Repr

/-- `Validator::read_integer(const std::string& name)` on one token. -/
def readIntegerTok (s : List Char) : Except IntErr Int :=
  if s = [] then .error .foundNothing
  else
    let r := fromChars s
    if r.consumed ≠ s.length ∨ r.ec ≠ .ok then .error (.notProcessed r.ec)
    else
      let v := r.value
      if v = 0 then
        if s.length ≠ 1 then .error .leadingZeroOrMinus else .ok v
      else if 0 < v then
        if s.headI = '0' then .error .leadingZeroPos else .ok v
      else
        if s.length ≤ 1 then .error .negShort
        else if s.getD 1 ' ' = '0' then .error .leadingZeroNeg
        else .ok v

/-- Nonempty digit string whose first digit is `1..9`. -/
def nzDigits : List Char → Bool
  | [] => false
  | c :: cs => ('1' ≤ c && c ≤ '9') && cs.all isDigit

/-- The strict integer grammar of the spec: `-?[1-9][0-9]*` or exactly
`"0"`. -/
def intGrammar (s : List Char) : Bool :=
  s = ['0'] || (if s.headI = '-' then nzDigits s.tail else nzDigits s)

/-- Mathematical value of a (sign ++ digits) token. -/
def intVal (s : List Char) : Int :=
  match s with
  | '-' :: t => -(foldDigits t : Int)
  | t => (foldDigits t : Int)

/-! ## `Validator::log_constraint` (bounds records, claim C3)

`Bounds<long long>` keeps the observed `min`/`max` and the declared
`low`/`high`; `log_constraint` creates the record on first use and updates
it.  Note the source updates `low`/`high` only when the observed `min`/`max`
moves, and sets `has_min`/`has_max` by comparing with the *call's* bounds. -/

structure BoundsRec where
  min : Int
  max : Int
  low : Int
  high : Int
  has_min : Bool
  has_max : Bool
deriving DecidableEq, Repr

/-- The mutation `log_constraint` performs on a record `done`:
`if (v < done.min) { done.min = v; done.low = low; }`,
`if (v > done.max) { done.max = v; done.high = high; }`,
`done.has_min |= v == low; done.has_max |= v == high;`.
(The two `if`s touch disjoint fields, so they are written field-wise.) -/
def boundsUpdate (b : BoundsRec) (low high v : Int) : BoundsRec :=
  { min := if v < b.min then v else b.min,
    low := if v < b.min then low else b.low,
    max := if b.max < v then v else b.max,
    high := if b.max < v then high else b.high,
    has_min := b.has_min || decide (v = low),
    has_max := b.has_max || decide (v = high) }

/-- `log_constraint(name, low, high, v)` on the slot for `name`
(`bounds.emplace` creates `Bounds(name, v, v, low, high)` when absent,
then the update code runs either way). -/
def logConstraint (b : Option BoundsRec) (low high v : Int) : BoundsRec :=
  match b with
  | none => boundsUpdate ⟨v, v, low, high, false, false⟩ low high v
  | some b0 => boundsUpdate b0 low high v

/-- Folding a sequence of `(low, high, v)` logging events for one name. -/
def logFold (events : List (Int × Int × Int)) : Option BoundsRec :=
  events.foldl (fun b e => some (logConstraint b e.1 e.2.1 e.2.2)) none

/-- The coverage invariant of one record with respect to declared bounds. -/
def boundsInv (low high : Int) (b : BoundsRec) : Prop :=
  b.low = low ∧ b.high = high ∧ low ≤ b.min ∧ b.min ≤ b.max ∧ b.max ≤ high ∧
    (b.has_min = true → b.min = low) ∧ (b.has_max = true → b.max = high)

/-! ## Random source and `UniformGenerator` (claims C5, C6, C8)

`std::mt19937_64` is modelled as a stream of raw 64-bit words together
with a cursor; `Random::bits64` pops the next word.  Sampling loops whose
C++ form is `do ... while` carry a `fuel` bound and return `none` when it
runs out (the C++ loops forever only on probability-zero streams). -/

structure Rng where
  stream : Nat → Nat
  pos : Nat

/-- `Random::bits64`: one full 64-bit word from the engine. -/
def bits64 (r : Rng) : Nat × Rng :=
  (r.stream r.pos % 2 ^ 64, ⟨r.stream, r.pos + 1⟩)

/-- `cpp20::countl_zero`, transcribing the halving loop. -/
def countl_zero (x : Nat) : Nat :=
  let p := [32, 16, 8, 4, 2, 1].foldl
    (fun (p : Nat × Nat) i => if 0 < p.1 >>> i then (p.1 >>> i, p.2 - i) else p)
    (x, 64)
  if 0 < p.1 then p.2 - 1 else p.2

/-- The rejection loop of `UniformGenerator::operator()<long long>`:
`do { res = bits64() >> shifts; } while (res > uh - ul);`. -/
def uniformLoop (range shifts : Nat) : Nat → Rng → Option (Nat × Rng)
  | 0, _ => none
  | fuel + 1, r =>
    let w := (bits64 r).1
    let r1 := (bits64 r).2
    let res := w >>> shifts
    if res ≤ range then some (res, r1) else uniformLoop range shifts fuel r1

/-- `Generators::UniformGenerator` on `long long`: uniform in `[low, high]`
by rejection on a shifted 64-bit word (`uh - ul` in unsigned arithmetic
equals `high - low` whenever `low ≤ high`). -/
def uniformInt (fuel : Nat) (low high : Int) (r : Rng) : Option (Int × Rng) :=
  if low = high then some (low, r)
  else
    let range := (high - low).toNat
    (uniformLoop range (countl_zero range) fuel r).map fun p => (low + (p.1 : Int), p.2)

/-- Swap of two positions of a list (`std::swap(first[i], first[j])`). -/
def swapL (l : List Int) (i j : Nat) : List Int :=
  (l.set i (l.getD j 0)).set j (l.getD i 0)

/-- The body of `Random::shuffle`: `for (i = n-1; i > 0; i--)
swap(first[i], first[uniform(0, i)])`; the argument is the current `i`. -/
def shuffleLoop (fuel : Nat) : Nat → List Int → Rng → Option (List Int × Rng)
  | 0, l, r => some (l, r)
  | i + 1, l, r =>
    match uniformInt fuel 0 ((i : Int) + 1) r with
    | none => none
    | some (j, r1) => shuffleLoop fuel i (swapL l (i + 1) j.toNat) r1

/-- `Random::shuffle` over a whole list. -/
def shuffleList (fuel : Nat) (l : List Int) (r : Rng) : Option (List Int × Rng) :=
  match l.length with
  | 0 => some (l, r)
  | n + 1 => shuffleLoop fuel n l r

/-! ## Tags and `gen_numbers` (vector generation) -/

/-- The `ArbitraryTag`/`UniqueTag`/... family (`validation.h` lines 44-69). -/
inductive Tag where
  | arbitrary
  | unique
  | increasing
  | decreasing
  | strictlyIncreasing
  | strictlyDecreasing
deriving DecidableEq, Repr

def Tag.uniq : Tag → Bool
  | .unique => true
  | _ => false

def Tag.incr : Tag → Bool
  | .increasing | .strictlyIncreasing => true
  | _ => false

def Tag.decr : Tag → Bool
  | .decreasing | .strictlyDecreasing => true
  | _ => false

def Tag.strict : Tag → Bool
  | .strictlyIncreasing | .strictlyDecreasing => true
  | _ => false

/-- `count` independent uniform draws (the plain generation loops of
`gen_numbers`). -/
def drawN (fuel : Nat) (low high : Int) : Nat → Rng → Option (List Int × Rng)
  | 0, r => some ([], r)
  | c + 1, r =>
    match uniformInt fuel low high r with
    | none => none
    | some (v, r1) =>
      match drawN fuel low high c r1 with
      | none => none
      | some (vs, r2) => some (v :: vs, r2)

/-- `do { w = uniform_number(low, high); } while (!seen_here.insert(w).second)`:
redraw until the value is fresh for `seen`. -/
def rejectFresh (ufuel : Nat) (low high : Int) : Nat → List Int → Rng → Option (Int × Rng)
  | 0, _, _ => none
  | fuel + 1, seen, r =>
    match uniformInt ufuel low high r with
    | none => none
    | some (w, r1) => if w ∈ seen then rejectFresh ufuel low high fuel seen r1 else some (w, r1)

/-- The per-element loop of the low-density Unique vector branch. -/
def genUniqueVecLoop (fuel : Nat) (low high : Int) :
    Nat → List Int → Rng → Option (List Int × Rng)
  | 0, _, r => some ([], r)
  | c + 1, seen, r =>
    match rejectFresh fuel low high fuel seen r with
    | none => none
    | some (w, r1) =>
      match genUniqueVecLoop fuel low high c (w :: seen) r1 with
      | none => none
      | some (vs, r2) => some (w :: vs, r2)

/-- `iota(begin(v), end(v), low)` over `high - low + 1` slots. -/
def rangeList (low high : Int) : List Int :=
  (List.range (high + 1 - low).toNat).map fun (k : Nat) => low + (k : Int)

/-- `v[i] += i` after sorting (strict monotone adjustment). -/
def addIdx : List Int → Int → List Int
  | [], _ => []
  | v :: vs, k => (v + k) :: addIdx vs (k + 1)

/-- `Validator::gen_numbers<long long>` (vector generation, no parameter
override): Arbitrary draws; Unique uses rejection when `2·count <
high - low` and otherwise crops a shuffled `iota`; monotone tags draw,
sort, add indices when strict, and reverse when decreasing. -/
def genNumbersInt (fuel : Nat) (tag : Tag) (count : Nat) (low high : Int) (r : Rng) :
    Option (List Int × Rng) :=
  if tag = .arbitrary then
    drawN fuel low high count r
  else if tag.uniq then
    if 2 * (count : Int) < high - low then
      genUniqueVecLoop fuel low high count [] r
    else
      match shuffleList fuel (rangeList low high) r with
      | none => none
      | some (l, r1) => some (l.take count, r1)
  else
    let high2 := if tag.strict then high - (count : Int) + 1 else high
    match drawN fuel low high2 count r with
    | none => none
    | some (vs, r1) =>
      let sorted := List.insertionSort (· ≤ ·) vs
      let stepped := if tag.strict then addIdx sorted 0 else sorted
      some (if tag.decr then stepped.reverse else stepped, r1)

/-! ## Unique scalar generation (`gen_number`, `integers_seen`) -/

/-- The per-name tuple `std::tuple<std::set<T>, std::vector<T>, bool>` of
`integers_seen()`: seen values, the materialised remaining pool (ascending),
and the `use_remaining` flag. -/
structure UniqueIntState where
  seenSet : List Int
  pool : List Int
  usePool : Bool
deriving DecidableEq, Repr

/-- The rejection part of unique scalar generation:
`do { v = uniform_number(low, high); } while (!seen_here.insert(v).second);`
(`std::set::insert` keeps the set unchanged and reports `false` on a
duplicate, so the loop retries with the same set). -/
def rejectInsert (ufuel : Nat) (low high : Int) :
    Nat → List Int → Rng → Option (Int × List Int × Rng)
  | 0, _, _ => none
  | fuel + 1, seen, r =>
    match uniformInt ufuel low high r with
    | none => none
    | some (w, r1) =>
      if w ∈ seen then rejectInsert ufuel low high fuel seen r1
      else some (w, w :: seen, r1)

/-- `gen_number` with the Unique tag on integers: pop from the materialised
pool when `use_remaining`, otherwise reject-and-insert, materialising the
pool (`set_difference` of `[low, high]` and `seen`, ascending) once more
than `(high - low) / 2` values are taken. -/
def genUniqueScalar (fuel : Nat) (low high : Int) (st : UniqueIntState) (r : Rng) :
    Option (Int × UniqueIntState × Rng) :=
  if st.usePool then
    match st.pool.getLast? with
    | none => none
    | some v => some (v, { st with pool := st.pool.dropLast }, r)
  else
    match rejectInsert fuel low high fuel st.seenSet r with
    | none => none
    | some (v, seen1, r1) =>
      if ((high - low) / 2).toNat < seen1.length then
        some (v, ⟨seen1, (rangeList low high).filter (fun x => decide (¬ x ∈ seen1)), true⟩, r1)
      else
        some (v, ⟨seen1, st.pool, st.usePool⟩, r1)

/-! ## Unique scalar generation: specification

`uVals st` is the set of values handed out so far for one name: the seen
set while rejection-sampling, and additionally everything of the range
that has left the pool once `use_remaining` is set. -/

def uVals (low high : Int) (st : UniqueIntState) (x : Int) : Prop :=
  (st.usePool = false ∧ x ∈ st.seenSet) ∨
    (st.usePool = true ∧ (x ∈ st.seenSet ∨ (low ≤ x ∧ x ≤ high)) ∧ ¬ x ∈ st.pool)

def uInv (low high : Int) (st : UniqueIntState) : Prop :=
  (∀ v ∈ st.seenSet, low ≤ v ∧ v ≤ high) ∧
  (st.usePool = true → st.pool.Nodup ∧ (∀ v ∈ st.pool, low ≤ v ∧ v ≤ high) ∧
     ∀ v ∈ st.pool, ¬ v ∈ st.seenSet) ∧
  (st.usePool = false → st.pool = [])

/-! ## Reader state and operations (whitespace-sensitive mode)

The `Generator`, `InputValidator` and `AnswerValidator` presets all run
with `ws = true`, so separators and tokens are read byte-exactly.  The
uniqueness (`seen`) and monotonicity (`last_seen`) maps are keyed by name
(string association lists); `bounds` is the `log_constraint` map. -/

def SMap (α : Type) : Type := List (String × α)

def mlookup {α : Type} (m : SMap α) (k : String) : Option α :=
  ((m : List (String × α)).find? (fun p => decide (p.1 = k))).map (fun p => p.2)

def mupdate {α : Type} (m : SMap α) (k : String) (v : α) : SMap α :=
  match m with
  | [] => [(k, v)]
  | p :: rest => if p.1 = k then (k, v) :: rest else p :: mupdate rest k v

def mremove {α : Type} (m : SMap α) (k : String) : SMap α :=
  (m : List (String × α)).filter (fun p => decide (p.1 ≠ k))

structure RState where
  input : List Char
  seen : SMap (List Int)
  lastSeen : SMap Int
  bounds : SMap BoundsRec

/-- `Validator::check_number` on `long long`: range check, constraint
logging, then the uniqueness / monotonicity checks of the tag. -/
def checkNumber (tag : Tag) (name : String) (low high v : Int) (st : RState) :
    Except Unit RState :=
  if v < low ∨ high < v then .error ()
  else
    let st := { st with
      bounds := mupdate st.bounds name
          (logConstraint (mlookup st.bounds name) low high v) }
    if tag.uniq then
      let cur := (mlookup st.seen name).getD []
      if v ∈ cur then .error ()
      else .ok { st with seen := mupdate st.seen name (v :: cur) }
    else
      match mlookup st.lastSeen name with
      | none => .ok { st with lastSeen := mupdate st.lastSeen name v }
      | some last =>
        let st := { st with lastSeen := mupdate st.lastSeen name v }
        if tag.incr ∧ ¬ last ≤ v then .error ()
        else if tag.decr ∧ ¬ v ≤ last then .error ()
        else if tag.strict ∧ v = last then .error ()
        else .ok st

/-- `Validator::get_string` with `ws = true`: the next byte must not be
whitespace (and must exist), then the maximal non-whitespace run is the
token. -/
def getStringR (st : RState) : Except Unit (List Char × RState) :=
  match st.input with
  | [] => .error ()
  | c :: _ =>
    if isWS c then .error ()
    else .ok (st.input.takeWhile (fun d => ! isWS d),
      { st with input := st.input.dropWhile (fun d => ! isWS d) })

/-- `Validator::space` with `ws = true`: exactly one `' '`. -/
def readSpace (st : RState) : Except Unit RState :=
  match st.input with
  | ' ' :: rest => .ok { st with input := rest }
  | _ => .error ()

/-- `Validator::newline` with `ws = true`: exactly one newline byte. -/
def readNewline (st : RState) : Except Unit RState :=
  match st.input with
  | '\n' :: rest => .ok { st with input := rest }
  | _ => .error ()

inductive Sep where
  | space
  | newline
deriving DecidableEq, Repr

def readSep : Sep → RState → Except Unit RState
  | .space => readSpace
  | .newline => readNewline

def sepChar : Sep → Char
  | .space => ' '
  | .newline => '\n'

/-- `read_number` in read mode for `long long`: token, strict parse,
`check_number`. -/
def readIntegerCmd (tag : Tag) (name : String) (low high : Int) (st : RState) :
    Except Unit (Int × RState) := do
  let p ← getStringR st
  match readIntegerTok p.1 with
  | .error _ => .error ()
  | .ok v => do
    let st2 ← checkNumber tag name low high v p.2
    pure (v, st2)

/-- `Validator::reset<long long>(name)` (erases the per-name uniqueness and
monotonicity state; called at the start of every vector read). -/
def resetName (name : String) (st : RState) : RState :=
  { st with seen := mremove st.seen name, lastSeen := mremove st.lastSeen name }

/-- The element loop of `read_numbers`: read, check, separator between
consecutive elements. -/
def readElems (tag : Tag) (name : String) (low high : Int) (sep : Sep) :
    Nat → RState → Except Unit (List Int × RState)
  | 0, st => .ok ([], st)
  | n + 1, st => do
    let p ← readIntegerCmd tag name low high st
    match n with
    | 0 => pure ([p.1], p.2)
    | m + 1 => do
      let st2 ← readSep sep p.2
      let q ← readElems tag name low high sep (m + 1) st2
      pure (p.1 :: q.1, q.2)

/-- `read_numbers` in read mode: reset the per-name state, read `count`
separated elements, then a final newline. -/
def readIntegersCmd (tag : Tag) (name : String) (count : Nat) (low high : Int)
    (sep : Sep) (st : RState) : Except Unit (List Int × RState) := do
  let q ← readElems tag name low high sep count (resetName name st)
  let st2 ← readNewline q.2
  pure (q.1, st2)

/-! ## Caller programs (deep embedding for the round trip) -/

inductive Cmd where
  | readInt (name : String) (low high : Int) (tag : Tag)
  | readInts (name : String) (count : Nat) (low high : Int) (tag : Tag) (sep : Sep)
  | space
  | newline

/-- One caller call in read mode. -/
def readCmd : Cmd → RState → Except Unit RState
  | .readInt n l h t, st => (readIntegerCmd t n l h st).map (fun p => p.2)
  | .readInts n c l h t sp, st => (readIntegersCmd t n c l h sp st).map (fun p => p.2)
  | .space, st => readSpace st
  | .newline, st => readNewline st

/-- A whole caller program in read mode. -/
def readList : List Cmd → RState → Except Unit RState
  | [], st => .ok st
  | c :: cs, st => (readCmd c st).bind (readList cs)

/-! ## Generator mode -/

structure GState where
  rng : Rng
  uniqueSeen : SMap UniqueIntState

/-- Rendering of a generated vector: elements separated by `sep`, then a
newline (the output discipline of `read_numbers` in generator mode). -/
def joinVals : List Int → Char → List Char
  | [], _ => ['\n']
  | [v], _ => intRepr v ++ ['\n']
  | v :: vs, c => intRepr v ++ c :: joinVals vs c

/-- One caller call in generator mode, producing the bytes it writes.
Scalar reads print the value with no separator; vector reads print the
elements separated by `sep` and a final newline.  Scalar
increasing/decreasing tags hit `assert(false)` in `gen_number` and are
modelled as failure. -/
def genCmd (fuel : Nat) : Cmd → GState → Option (List Char × GState)
  | .readInt n l h t, g =>
    if t.uniq then
      match genUniqueScalar fuel l h ((mlookup g.uniqueSeen n).getD ⟨[], [], false⟩) g.rng with
      | none => none
      | some (v, u1, r1) => some (intRepr v, ⟨r1, mupdate g.uniqueSeen n u1⟩)
    else if t = .arbitrary then
      match uniformInt fuel l h g.rng with
      | none => none
      | some (v, r1) => some (intRepr v, ⟨r1, g.uniqueSeen⟩)
    else none
  | .readInts n c l h t sp, g =>
    match genNumbersInt fuel t c l h g.rng with
    | none => none
    | some (vs, r1) => some (joinVals vs (sepChar sp), ⟨r1, g.uniqueSeen⟩)
  | .space, g => some ([' '], g)
  | .newline, g => some (['\n'], g)

/-- A whole caller program in generator mode. -/
def genList (fuel : Nat) : List Cmd → GState → Option (List Char × GState)
  | [], g => some ([], g)
  | c :: cs, g =>
    match genCmd fuel c g with
    | none => none
    | some (o, g1) =>
      match genList fuel cs g1 with
      | none => none
      | some (o2, g2) => some (o ++ o2, g2)

/-! ## Destructor and exit-code protocol (claim C4) -/

inductive Outcome where
  | exited (code : Nat)
  | returned
deriving DecidableEq, Repr

inductive DtorAction where
  | eofChecked
  | flushedOutput
  | wroteConstraints
deriving DecidableEq, Repr

def retAC : Nat := 42

def retWA : Nat := 43

/-- `~Validator` in read mode: `eof(); write_constraints(); AC();` —
`eof()` exits with WA when bytes remain, skipping the rest; otherwise the
bounds log is written (when a path was configured) and `AC()` calls
`exit(42)`. -/
def destructorRead (inputEmpty : Bool) (hasPath : Bool) : List DtorAction × Outcome :=
  if inputEmpty then
    ([DtorAction.eofChecked] ++ (if hasPath then [DtorAction.wroteConstraints] else []),
      .exited retAC)
  else ([DtorAction.eofChecked], .exited retWA)

/-- `~Validator` in generator mode: `eof()` flushes and closes stdout,
`write_constraints()` runs, and `AC()` returns without exiting. -/
def destructorGen (hasPath : Bool) : List DtorAction × Outcome :=
  ([DtorAction.flushedOutput] ++ (if hasPath then [DtorAction.wroteConstraints] else []),
    .returned)

/-- A full read-mode validator run: the caller program, then the scope
exit.  Any failing check inside the lifetime is `WA(...)`, which prints
and calls `exit(43)`. -/
def runReadValidator (P : List Cmd) (input : List Char) (hasPath : Bool) :
    List DtorAction × Outcome :=
  match readList P ⟨input, [], [], []⟩ with
  | .error _ => ([], .exited retWA)
  | .ok st => destructorRead (decide (st.input = [])) hasPath

/-- The exit code of a read-mode run (42 accept / 43 reject). -/
def readerVerdict (P : List Cmd) (input : List Char) : Nat :=
  match (runReadValidator P input false).2 with
  | .exited c => c
  | .returned => 0

/-! ## Token boundaries: reading back generated bytes -/

/-- The bytes after a token either end the stream or begin with
whitespace, so extraction stops exactly at the token. -/
def wsBoundary (rest : List Char) : Prop :=
  rest = [] ∨ ∃ c cs, rest = c :: cs ∧ isWS c = true

/-- Element bytes of a generated vector, without the trailing newline. -/
def elemsBytes : List Int → Char → List Char
  | [], _ => []
  | [v], _ => intRepr v
  | v :: vs, c => intRepr v ++ c :: elemsBytes vs c

/-! ## Well-formed caller programs -/

def scalarTagOK : Tag → Bool
  | .arbitrary | .unique => true
  | _ => false

/-- Per-command conditions: names and ranges are sane (`low ≤ high` within
`long long`, count within the range for Unique/strict vectors, scalar tags
restricted to the generator-supported ones). -/
def cmdWF : Cmd → Bool
  | .readInt n l h t =>
    decide (n ≠ "") && decide (int64Min ≤ l) && decide (l ≤ h) &&
      decide (h ≤ int64Max) && scalarTagOK t
  | .readInts _ c l h t _ =>
    decide (int64Min ≤ l) && decide (l ≤ h) && decide (h ≤ int64Max) &&
      (if t.uniq || t.strict then decide ((c : Int) ≤ h - l + 1) else true)
  | .space => true
  | .newline => true

/-- Scalar reads print bare digits, so a separator call (or the end of the
program) must follow before the next token-producing command. -/
def isTokenCmd : Cmd → Bool
  | .readInt _ _ _ _ => true
  | _ => false

def sepNext : List Cmd → Bool
  | [] => true
  | .space :: _ => true
  | .newline :: _ => true
  | _ => false

def seqWF : List Cmd → Bool
  | [] => true
  | c :: cs => cmdWF c && (if isTokenCmd c then sepNext cs else true) && seqWF cs

/-- No Unique-tagged scalar read of `n` occurs in the list (used after a
vector read of `n`, whose reset would desynchronise the generator and
reader uniqueness state). -/
def noUniqueScalarOf (n : String) : List Cmd → Bool
  | [] => true
  | .readInt n2 _ _ t :: cs =>
      (!(t.uniq && decide (n2 = n))) && noUniqueScalarOf n cs
  | _ :: cs => noUniqueScalarOf n cs

def vecNameRule : List Cmd → Bool
  | [] => true
  | .readInts n _ _ _ _ _ :: cs => noUniqueScalarOf n cs && vecNameRule cs
  | _ :: cs => vecNameRule cs

/-- All Unique scalar reads of one name use one declared range (the
constant-range invariant of the data model). -/
def uniqueScalarBounds (n : String) (l h : Int) : List Cmd → Bool
  | [] => true
  | .readInt n2 l2 h2 t :: cs =>
      ((!(t.uniq && decide (n2 = n))) || (decide (l2 = l) && decide (h2 = h))) &&
        uniqueScalarBounds n l h cs
  | _ :: cs => uniqueScalarBounds n l h cs

def uniqueBoundsAgree : List Cmd → Bool
  | [] => true
  | .readInt n l h t :: cs =>
      (if t.uniq then uniqueScalarBounds n l h cs else true) && uniqueBoundsAgree cs
  | _ :: cs => uniqueBoundsAgree cs

/-- The generator/reader coupling: for every Unique scalar name still to be
read, the reader's seen set is exactly the generator's handed-out set, and
the generator state is well-formed. -/
def roundInv (cmds : List Cmd) (u : SMap UniqueIntState) (st : RState) : Prop :=
  ∀ c ∈ cmds, ∀ n l h t, c = Cmd.readInt n l h t → t.uniq = true →
    uInv l h ((mlookup u n).getD ⟨[], [], false⟩) ∧
    ∀ x, x ∈ (mlookup st.seen n).getD [] ↔
      uVals l h ((mlookup u n).getD ⟨[], [], false⟩) x

/-- A run of Unique-tagged `read_integer` calls with one name (the seen
set threads through the shared map). -/
def checkAll (name : String) (low high : Int) : List Int → RState → Except Unit RState
  | [], st => .ok st
  | v :: vs, st => (checkNumber .unique name low high v st).bind (checkAll name low high vs)

/-! ## Claim C8: seeding and determinism

`std::mt19937_64` is the engine behind `Random`; it is standard-library
code, modelled here per its specification: `state[0] = seed`,
`state[i] = 6364136223846793005 * (state[i-1] xor (state[i-1] >> 62)) + i`
(mod `2^64`); each block of 312 outputs twists the state in place and
tempers the indexed word. -/

def mtMul : Nat := 6364136223846793005

def mtN : Nat := 312

def mtM : Nat := 156

def mtMatrixA : Nat := 0xB5026F5AA96619E9

def mtUpperMask : Nat := 0xFFFFFFFF80000000

def mtLowerMask : Nat := 0x7FFFFFFF

def mtInitState (seed : Nat) : Nat → Nat
  | 0 => seed % 2 ^ 64
  | i + 1 =>
    let prev := mtInitState seed i
    (mtMul * (prev ^^^ (prev >>> 62)) + (i + 1)) % 2 ^ 64

/-- One in-place step of the twist at index `i` (earlier indices already
hold their new values). -/
def mtTwistStep (mt : Nat → Nat) (i : Nat) : Nat → Nat :=
  fun k =>
    if k = i then
      let x := (mt i &&& mtUpperMask) ||| (mt ((i + 1) % mtN) &&& mtLowerMask)
      let xA := if x % 2 = 1 then (x >>> 1) ^^^ mtMatrixA else x >>> 1
      mt ((i + mtM) % mtN) ^^^ xA
    else mt k

def mtTwistOnce (mt : Nat → Nat) : Nat → Nat :=
  (List.range mtN).foldl mtTwistStep mt

def mtTwistIter : Nat → (Nat → Nat) → (Nat → Nat)
  | 0, mt => mt
  | k + 1, mt => mtTwistIter k (mtTwistOnce mt)

def mtTemper (y0 : Nat) : Nat :=
  let y1 := y0 ^^^ ((y0 >>> 29) &&& 0x5555555555555555)
  let y2 := (y1 ^^^ ((y1 <<< 17) &&& 0x71D67FFFEDA60000)) % 2 ^ 64
  let y3 := (y2 ^^^ ((y2 <<< 37) &&& 0xFFF7EEE000000000)) % 2 ^ 64
  y3 ^^^ (y3 >>> 43)

/-- The `k`-th raw output of the engine (index starts at `n`, so the first
output forces one twist). -/
def mtStream (seed : Nat) (k : Nat) : Nat :=
  mtTemper (mtTwistIter (k / mtN + 1) (mtInitState seed) (k % mtN))

def seedRng (seed : Nat) : Rng := ⟨mtStream seed, 0⟩

/-- The byte stream a seeded generator run writes. -/
def genOutput (fuel : Nat) (P : List Cmd) (seed : Nat) : Option (List Char) :=
  (genList fuel P ⟨seedRng seed, []⟩).map (fun p => p.1)

/-! ## Claim C9: the uniqueness maps are function-local statics -/

/-- `Validator::check_number` called through instance `inst`: `seen()` and
`last_seen()` are function-local statics shared by every instance, so the
map state `st` is global and `inst` does not enter the computation. -/
def checkNumberInst (inst : Nat) (tag : Tag) (name : String) (low high v : Int)
    (st : RState) : Except Unit RState :=
  checkNumber tag name low high v st

/-! ## The default output validator (claims C7, C10)

`default_output_validator.cpp`: the jury answer and the team output are
cut into tokens (a single whitespace byte, or a maximal run of
non-whitespace bytes; `WHITESPACE = " \f\n\r\t\v"` is the byte set of
`isWS`), and `check` walks the two token streams.  The `long double`
arithmetic of the float-tolerance branch (`std::stold`, the tolerance
comparison and its `std::to_string` rendering) is platform arithmetic the
repository does not define; it is abstracted into a `FloatCmp` parameter,
while the float token grammar (`util::is_float`) is transcribed. -/

def tokenize : List Char → List (List Char)
  | [] => []
  | c :: cs =>
    if isWS c then [c] :: tokenize cs
    else
      match cs with
      | [] => [[c]]
      | d :: _ =>
        if isWS d then [c] :: tokenize cs
        else
          match tokenize cs with
          | [] => [[c]]
          | t :: ts => (c :: t) :: ts

/-- `token_view::is_space`: exactly one byte, and it is whitespace. -/
def isSpaceTok : List Char → Bool
  | [c] => isWS c
  | _ => false

def util_is_digits (t : List Char) : Bool :=
  t.all (fun c => '0' ≤ c && c ≤ '9')

def util_is_integer (t0 : List Char) : Bool :=
  let t := match t0 with
    | '-' :: rest => rest
    | _ => t0
  if t = [] then false
  else if 1 < t.length && t.headI = '0' then false
  else util_is_digits t

def util_is_decimal (t : List Char) : Bool :=
  match t.findIdx? (fun c => c = '.') with
  | none => util_is_integer t
  | some dot => util_is_integer (t.take dot) && util_is_digits (t.drop (dot + 1))

def util_is_float (t : List Char) : Bool :=
  match t.findIdx? (fun c => c = 'e' || c = 'E') with
  | none => util_is_decimal t
  | some e =>
    util_is_decimal (t.take e) &&
      (let hasSign := t.getD (e + 1) ' ' = '-' || t.getD (e + 1) ' ' = '+'
       let digits := t.drop (e + 1 + (if hasSign then 1 else 0))
       decide (digits ≠ []) && util_is_digits digits)

/-- `std::tolower` in the C locale: only ASCII `A`–`Z` move. -/
def toLowerByte (c : Char) : Char :=
  if 'A' ≤ c ∧ c ≤ 'Z' then Char.ofNat (c.toNat + 32) else c

/-- `token_view::case_insensitive_equal`: equal sizes and bytewise equal
after `tolower` (equivalently, equal lowered lists). -/
def ciEqual (a b : List Char) : Bool :=
  a.map toLowerByte = b.map toLowerByte

/-- `token_view::formatted` (the 200-byte default limit). -/
def formatted (t : List Char) : String :=
  if t = [] then "EOF"
  else if t = [' '] then "\" \""
  else if t = ['\x0c'] then "\"\\f\""
  else if t = ['\n'] then "\"\\n\""
  else if t = ['\r'] then "\"\\r\""
  else if t = ['\x0b'] then "\"\\v\""
  else if t = ['\t'] then "\"\\t\""
  else if 200 < t.length then String.mk (t.take 195) ++ "[...]"
  else String.mk t

/-- The parameter flags of `main`. -/
structure DiffFlags where
  case_sensitive : Bool
  space_change_sensitive : Bool
  compare_floats : Bool

/-- The abstracted `long double` layer: `isFin t` says `std::stold`
succeeds and the value is finite; `eq` is the tolerance comparison; `msg`
the rendered difference text. -/
structure FloatCmp where
  isFin : List Char → Bool
  feq : List Char → List Char → Bool
  fmsg : List Char → List Char → String

/-- `token_view::is_float()` produces a value: grammar and finite parse. -/
def isFloatTok (fc : FloatCmp) (t : List Char) : Bool :=
  util_is_float t && fc.isFin t

structure DiffRes where
  message : String
  case_change : Option String
  space_change : Option String
  verdict : Nat
deriving DecidableEq, Repr

def diffInit : DiffRes := ⟨"", none, none, retAC⟩

def set_diff (r : DiffRes) (expected given : String) : DiffRes :=
  { r with message := "Got: " ++ given ++ ", wanted: " ++ expected, verdict := retWA }

def set_case_change (fl : DiffFlags) (r : DiffRes) (expected given : String) : DiffRes :=
  match r.case_change with
  | some _ => r
  | none =>
    { r with
      case_change := some ("Case error. Got: " ++ given ++ ", wanted: " ++ expected),
      verdict := if fl.case_sensitive then retWA else r.verdict }

def set_space_change (fl : DiffFlags) (r : DiffRes) (expected given : String) : DiffRes :=
  match r.space_change with
  | some _ => r
  | none =>
    { r with
      space_change := some ("Whitespace error. Got: " ++ given ++ ", wanted: " ++ expected),
      verdict := if fl.space_change_sensitive then retWA else r.verdict }

/-- `if (res.verdict == AC) res.message = "ok";` at the end of `check`. -/
def finalize (r : DiffRes) : DiffRes :=
  if r.verdict = retAC then { r with message := "ok" } else r

/-- The `while (not jury->is_eof())` trailing loop (team is at EOF). -/
def trailJury (fl : DiffFlags) : List (List Char) → DiffRes → DiffRes
  | [], r => finalize r
  | j :: js, r =>
    if isSpaceTok j then
      trailJury fl js (set_space_change fl r (formatted j) (formatted []))
    else
      { r with
        message := "Team is missing output (jury had: " ++ formatted j ++ ")",
        verdict := retWA }

/-- The `while (not team->is_eof())` trailing loop (jury is at EOF), then
the jury loop. -/
def trailTeam (fl : DiffFlags) (js : List (List Char)) :
    List (List Char) → DiffRes → DiffRes
  | [], r => trailJury fl js r
  | t :: ts, r =>
    if isSpaceTok t then
      trailTeam fl js ts (set_space_change fl r (formatted []) (formatted t))
    else
      { r with
        message := "Team has trailing output: " ++ formatted t,
        verdict := retWA }

/-- The main token walk of `check` (fuelled: every iteration consumes at
least one token, so `jury.length + team.length` iterations suffice). -/
def mainLoop (fl : DiffFlags) (fc : FloatCmp) :
    Nat → List (List Char) → List (List Char) → DiffRes → DiffRes
  | 0, _, _, r => r
  | fuel + 1, js0, ts0, r =>
    match js0, ts0 with
    | [], ts => trailTeam fl [] ts r
    | js, [] => trailTeam fl js [] r
    | j :: js, t :: ts =>
      if j = t then mainLoop fl fc fuel js ts r
      else if isSpaceTok j || isSpaceTok t then
        mainLoop fl fc fuel (if isSpaceTok j then js else j :: js)
          (if isSpaceTok t then ts else t :: ts)
          (set_space_change fl r (formatted j) (formatted t))
      else if fl.compare_floats && isFloatTok fc j && isFloatTok fc t then
        if fc.feq j t then mainLoop fl fc fuel js ts r
        else
          let r1 := set_diff r (formatted j) (formatted t)
          { r1 with message := r1.message ++ " (" ++ fc.fmsg j t ++ ")" }
      else if ciEqual j t then
        mainLoop fl fc fuel js ts (set_case_change fl r (formatted j) (formatted t))
      else set_diff r (formatted j) (formatted t)

/-- `check` on raw byte streams. -/
def check (fl : DiffFlags) (fc : FloatCmp) (ans team : List Char) : DiffRes :=
  let js := tokenize ans
  let ts := tokenize team
  mainLoop fl fc (js.length + ts.length + 1) js ts diffInit

/-- The word content of a byte stream: its non-whitespace tokens. -/
def dvWords (l : List Char) : List (List Char) :=
  (tokenize l).filter (fun t => ! isSpaceTok t)

/-- The verdict computed from the word sequences alone (whitespace
tokens dropped), threading the 42/43 state. -/
def wverdict (cs : Bool) : List (List Char) → List (List Char) → Nat → Nat
  | [], [], v => v
  | [], _ :: _, _ => retWA
  | _ :: _, [], _ => retWA
  | j :: js, t :: ts, v =>
    if j = t then wverdict cs js ts v
    else if ciEqual j t then wverdict cs js ts (if cs = true then retWA else v)
    else retWA

/-! ## Decimal printing / parsing lemmas -/

theorem digitVal_digitChar {d : Nat} (h : d < 10) : digitVal (digitChar d) = d := by
  interval_cases d <;> rfl

theorem isDigit_digitChar {d : Nat} (h : d < 10) : isDigit (digitChar d) = true := by
  interval_cases d <;> rfl

theorem foldDigits_nil : foldDigits [] = 0 := rfl

theorem foldDigits_from (a : Nat) (l : List Char) :
    l.foldl (fun a c => 10 * a + digitVal c) a = a * 10 ^ l.length + foldDigits l := by
  induction l generalizing a with
  | nil => simp [foldDigits]
  | cons c t ih =>
    simp only [List.foldl_cons, List.length_cons, foldDigits, mul_zero, zero_add]
    rw [ih (10 * a + digitVal c), ih (digitVal c)]
    ring

theorem foldDigits_cons (c : Char) (t : List Char) :
    foldDigits (c :: t) = digitVal c * 10 ^ t.length + foldDigits t := by
  simp only [foldDigits, List.foldl_cons]
  simpa using foldDigits_from (digitVal c) t

theorem foldDigits_revMap (ds : List Nat) (h : ∀ d ∈ ds, d < 10) :
    foldDigits ((ds.map digitChar).reverse) = Nat.ofDigits 10 ds := by
  induction ds with
  | nil => simp [foldDigits, Nat.ofDigits]
  | cons d t ih =>
    have hd : d < 10 := h d (by simp)
    have ht : ∀ x ∈ t, x < 10 := fun x hx => h x (by simp [hx])
    simp only [List.map_cons, List.reverse_cons, foldDigits, List.foldl_append,
      List.foldl_cons, List.foldl_nil]
    have := foldDigits_from (10 * foldDigits ((t.map digitChar).reverse) + digitVal (digitChar d)) []
    simp only [foldDigits] at ih
    rw [ih ht, Nat.ofDigits_cons, digitVal_digitChar hd]
    ring

theorem foldDigits_natRepr (n : Nat) : foldDigits (natRepr n) = n := by
  by_cases h : n = 0
  · subst h; rfl
  · rw [natRepr, if_neg h, foldDigits_revMap _ (fun d hd => Nat.digits_lt_base (by norm_num) hd)]
    exact Nat.ofDigits_digits 10 n

theorem natRepr_ne_nil (n : Nat) : natRepr n ≠ [] := by
  by_cases h : n = 0
  · subst h; simp [natRepr]
  · rw [natRepr, if_neg h]
    simp only [ne_eq, List.reverse_eq_nil_iff, List.map_eq_nil_iff]
    exact Nat.digits_ne_nil_iff_ne_zero.mpr h

theorem natRepr_all_digits (n : Nat) : ∀ c ∈ natRepr n, isDigit c = true := by
  by_cases h : n = 0
  · subst h; intro c hc; simp [natRepr] at hc; subst hc; rfl
  · rw [natRepr, if_neg h]
    intro c hc
    simp only [List.mem_reverse, List.mem_map] at hc
    obtain ⟨d, hd, rfl⟩ := hc
    exact isDigit_digitChar (Nat.digits_lt_base (by norm_num) hd)

theorem headI_of_ne_nil {α : Type} [Inhabited α] (l : List α) (h : l ≠ []) :
    l.headI = l.head h := by
  rcases l with _ | ⟨a, t⟩
  · exact absurd rfl h
  · rfl

theorem natRepr_headI (n : Nat) (h : n ≠ 0) :
    '1' ≤ (natRepr n).headI ∧ (natRepr n).headI ≤ '9' := by
  rw [natRepr, if_neg h]
  have hne : Nat.digits 10 n ≠ [] := Nat.digits_ne_nil_iff_ne_zero.mpr h
  have hmapne : (Nat.digits 10 n).map digitChar ≠ [] := by
    simpa [List.map_eq_nil_iff] using hne
  have hrevne : ((Nat.digits 10 n).map digitChar).reverse ≠ [] := by
    simpa using hmapne
  rw [headI_of_ne_nil _ hrevne, List.head_reverse, List.getLast_map]
  have hlast : (Nat.digits 10 n).getLast hne ≠ 0 := Nat.getLast_digit_ne_zero 10 h
  have hlt : (Nat.digits 10 n).getLast hne < 10 :=
    Nat.digits_lt_base (by norm_num) (List.getLast_mem hne)
  set d := (Nat.digits 10 n).getLast hne with hd
  interval_cases d
  · exact absurd rfl hlast
  all_goals exact ⟨by decide, by decide⟩

/-! ## Character-order helpers -/

theorem char_le_iff (a c : Char) : a ≤ c ↔ a.toNat ≤ c.toNat := by
  constructor <;> intro h <;> exact h

theorem char_eq_iff (a c : Char) : a = c ↔ a.toNat = c.toNat := by
  constructor
  · intro h; subst h; rfl
  · intro h; exact Char.ext (UInt32.ext h)

theorem isDigit_iff (c : Char) : isDigit c = true ↔ 48 ≤ c.toNat ∧ c.toNat ≤ 57 := by
  simp only [isDigit, Bool.and_eq_true, decide_eq_true_eq]
  rw [char_le_iff, char_le_iff]
  constructor <;> intro h <;> exact ⟨h.1, h.2⟩

theorem one_le_of_digit_ne_zero {c : Char} (hd : isDigit c = true) (hne : c ≠ '0') :
    '1' ≤ c ∧ c ≤ '9' := by
  rw [isDigit_iff] at hd
  simp only [ne_eq, char_eq_iff, show ('0' : Char).toNat = 48 from rfl] at hne
  rw [char_le_iff, char_le_iff, show ('1' : Char).toNat = 49 from rfl,
    show ('9' : Char).toNat = 57 from rfl]
  exact ⟨by omega, by omega⟩

theorem digit_of_one_le {c : Char} (h1 : '1' ≤ c) (h9 : c ≤ '9') :
    isDigit c = true ∧ c ≠ '0' ∧ c ≠ '-' ∧ 1 ≤ digitVal c := by
  rw [char_le_iff] at h1 h9
  have h49 : ('1' : Char).toNat = 49 := rfl
  have h57 : ('9' : Char).toNat = 57 := rfl
  rw [h49] at h1; rw [h57] at h9
  refine ⟨(isDigit_iff c).mpr ⟨by omega, by omega⟩, ?_, ?_, ?_⟩
  · simp only [ne_eq, char_eq_iff, show ('0' : Char).toNat = 48 from rfl]; omega
  · simp only [ne_eq, char_eq_iff, show ('-' : Char).toNat = 45 from rfl]; omega
  · unfold digitVal; omega

theorem isDigit_not_dash {c : Char} (hd : isDigit c = true) : c ≠ '-' := by
  rw [isDigit_iff] at hd
  simp only [ne_eq, char_eq_iff, show ('-' : Char).toNat = 45 from rfl]
  omega

theorem digitVal_zero_iff {c : Char} (hd : isDigit c = true) :
    digitVal c = 0 ↔ c = '0' := by
  rw [isDigit_iff] at hd
  rw [char_eq_iff, show ('0' : Char).toNat = 48 from rfl]
  unfold digitVal
  omega

theorem takeWhile_eq_self_of_all {p : Char → Bool} {l : List Char}
    (h : ∀ c ∈ l, p c = true) : l.takeWhile p = l := by
  induction l with
  | nil => rfl
  | cons a t ih =>
    rw [List.takeWhile_cons, h a (by simp)]
    simp [ih fun c hc => h c (by simp [hc])]

theorem all_of_takeWhile_length {p : Char → Bool} {l : List Char}
    (h : (l.takeWhile p).length = l.length) : ∀ c ∈ l, p c = true := by
  induction l with
  | nil => simp
  | cons a t ih =>
    rw [List.takeWhile_cons] at h
    by_cases hp : p a
    · rw [hp] at h
      simp only [if_true, List.length_cons, Nat.succ_inj] at h
      intro c hc
      rcases List.mem_cons.mp hc with rfl | hct
      · exact hp
      · exact ih h c hct
    · simp only [hp] at h
      simp at h

/-! ## Characterisation of `read_integer` -/

theorem intVal_neg (t : List Char) : intVal ('-' :: t) = -(foldDigits t : Int) := rfl

theorem intVal_cons_of_ne {c : Char} (cs : List Char) (h : c ≠ '-') :
    intVal (c :: cs) = (foldDigits (c :: cs) : Int) := by
  unfold intVal
  split
  · rename_i heq
    rw [List.cons.injEq] at heq
    exact absurd heq.1 h
  · rfl

theorem nzDigits_shape {t : List Char} (h : nzDigits t = true) :
    ∃ c cs, t = c :: cs ∧ '1' ≤ c ∧ c ≤ '9' ∧ (∀ x ∈ cs, isDigit x = true) := by
  cases t with
  | nil => exact absurd h (by simp [nzDigits])
  | cons c cs =>
    refine ⟨c, cs, rfl, ?_, ?_, ?_⟩ <;>
      simp only [nzDigits, Bool.and_eq_true, decide_eq_true_eq, List.all_eq_true] at h
    · exact h.1.1
    · exact h.1.2
    · exact fun x hx => h.2 x hx

theorem nzDigits_pos {t : List Char} (h : nzDigits t = true) : 1 ≤ foldDigits t := by
  obtain ⟨c, cs, rfl, h1, h9, _⟩ := nzDigits_shape h
  obtain ⟨_, _, _, hv⟩ := digit_of_one_le h1 h9
  rw [foldDigits_cons]
  have hp : 1 ≤ 10 ^ cs.length := Nat.one_le_pow _ _ (by norm_num)
  calc 1 = 1 * 1 := by ring
    _ ≤ digitVal c * 10 ^ cs.length := Nat.mul_le_mul hv hp
    _ ≤ _ := Nat.le_add_right _ _

theorem intGrammar_cases {s : List Char} (h : intGrammar s = true) :
    s = ['0'] ∨
      (s.headI = '-' ∧ nzDigits s.tail = true) ∨
      (s.headI ≠ '-' ∧ nzDigits s = true) := by
  unfold intGrammar at h
  rw [Bool.or_eq_true, decide_eq_true_eq] at h
  rcases h with h | h
  · exact Or.inl h
  · by_cases hh : s.headI = '-'
    · rw [if_pos hh] at h; exact Or.inr (Or.inl ⟨hh, h⟩)
    · rw [if_neg hh] at h; exact Or.inr (Or.inr ⟨hh, h⟩)

theorem fromChars_grammar (s : List Char) (h : intGrammar s = true) :
    fromChars s =
      if intVal s < int64Min ∨ int64Max < intVal s
      then ⟨0, s.length, .resultOutOfRange⟩
      else ⟨intVal s, s.length, .ok⟩ := by
  rcases intGrammar_cases h with rfl | ⟨hh, hnz⟩ | ⟨hh, hnz⟩
  · have : intVal ['0'] = 0 := rfl
    rw [this]
    rw [if_neg (by unfold int64Min int64Max; omega)]
    rfl
  · obtain ⟨c, cs, ht, h1, h9, hcs⟩ := nzDigits_shape hnz
    obtain ⟨hcd, _, _, _⟩ := digit_of_one_le h1 h9
    rcases s with _ | ⟨a, t⟩
    · exact absurd hh (by intro hx; exact absurd hx (by decide))
    · simp only [List.headI] at hh
      subst hh
      simp only [List.tail_cons] at ht hnz
      subst ht
      have hall : ∀ x ∈ c :: cs, isDigit x = true := by
        intro x hx
        rcases List.mem_cons.mp hx with rfl | hxc
        · exact hcd
        · exact hcs x hxc
      have hTW : List.takeWhile isDigit (c :: cs) = c :: cs :=
        takeWhile_eq_self_of_all hall
      unfold fromChars
      simp only [List.headI, List.tail_cons, if_pos rfl, if_true, hTW, intVal_neg]
      rw [if_neg (List.cons_ne_nil c cs)]
      split
      · simp only [FCRes.mk.injEq, List.length_cons]
        refine ⟨trivial, by omega, trivial⟩
      · simp only [FCRes.mk.injEq, List.length_cons]
        refine ⟨trivial, by omega, trivial⟩
  · obtain ⟨c, cs, hs, h1, h9, hcs⟩ := nzDigits_shape hnz
    obtain ⟨hcd, _, hcdash, _⟩ := digit_of_one_le h1 h9
    subst hs
    have hall : ∀ x ∈ c :: cs, isDigit x = true := by
      intro x hx
      rcases List.mem_cons.mp hx with rfl | hxc
      · exact hcd
      · exact hcs x hxc
    have hTW : List.takeWhile isDigit (c :: cs) = c :: cs :=
      takeWhile_eq_self_of_all hall
    unfold fromChars
    simp only [List.headI] at hh ⊢
    rw [intVal_cons_of_ne cs hcdash]
    simp only [if_neg hh, hTW]
    rw [if_neg (List.cons_ne_nil c cs)]
    split
    · simp only [FCRes.mk.injEq, List.length_cons]
      refine ⟨trivial, by omega, trivial⟩
    · simp only [FCRes.mk.injEq, List.length_cons]
      refine ⟨trivial, by omega, trivial⟩

/-- Reduction of `read_integer` once `from_chars` succeeded on the whole
token. -/
theorem readIntegerTok_eq_body (s : List Char) (hs : s ≠ []) (v : Int)
    (hfc : fromChars s = ⟨v, s.length, .ok⟩) :
    readIntegerTok s =
      if v = 0 then
        if s.length ≠ 1 then .error .leadingZeroOrMinus else .ok v
      else if 0 < v then
        if s.headI = '0' then .error .leadingZeroPos else .ok v
      else
        if s.length ≤ 1 then .error .negShort
        else if s.getD 1 ' ' = '0' then .error .leadingZeroNeg
        else .ok v := by
  unfold readIntegerTok
  rw [if_neg hs, hfc]
  simp

/-- `read_integer` on a grammatical token: accepted exactly when the value
fits in a `long long`, rejected with the `result_out_of_range` parse error
otherwise. -/
theorem readIntegerTok_of_grammar (s : List Char) (h : intGrammar s = true) :
    readIntegerTok s =
      if intVal s < int64Min ∨ int64Max < intVal s
      then .error (.notProcessed .resultOutOfRange)
      else .ok (intVal s) := by
  have hfc := fromChars_grammar s h
  have hsne : s ≠ [] := by
    rcases intGrammar_cases h with rfl | ⟨_, hnz⟩ | ⟨_, hnz⟩
    · simp
    · intro hx
      rw [hx] at hnz
      exact absurd hnz (by simp [nzDigits])
    · intro hx
      rw [hx] at hnz
      exact absurd hnz (by simp [nzDigits])
  by_cases hout : intVal s < int64Min ∨ int64Max < intVal s
  · rw [if_pos hout]
    rw [if_pos hout] at hfc
    unfold readIntegerTok
    rw [if_neg hsne, hfc]
    simp
  · rw [if_neg hout]
    rw [if_neg hout] at hfc
    rw [readIntegerTok_eq_body s hsne (intVal s) hfc]
    rcases intGrammar_cases h with rfl | ⟨hh, hnz⟩ | ⟨hh, hnz⟩
    · rfl
    · obtain ⟨c, cs, ht, h1, h9, hcs⟩ := nzDigits_shape hnz
      obtain ⟨hcd, hc0, _, _⟩ := digit_of_one_le h1 h9
      rcases s with _ | ⟨a, t⟩
      · exact absurd rfl hsne
      · simp only [List.headI] at hh
        subst hh
        simp only [List.tail_cons] at ht
        subst ht
        have hneg : intVal ('-' :: c :: cs) = -(foldDigits (c :: cs) : Int) := rfl
        have hpos : 1 ≤ foldDigits (c :: cs) := nzDigits_pos hnz
        rw [hneg]
        have hv0 : ¬(-(foldDigits (c :: cs) : Int) = 0) := by omega
        have hvp : ¬(0 < -(foldDigits (c :: cs) : Int)) := by omega
        rw [if_neg hv0, if_neg hvp,
          if_neg (by simp only [List.length_cons]; omega)]
        have hget : ('-' :: c :: cs).getD 1 ' ' = c := rfl
        rw [hget, if_neg hc0]
    · obtain ⟨c, cs, hs, h1, h9, hcs⟩ := nzDigits_shape hnz
      obtain ⟨hcd, hc0, hcdash, _⟩ := digit_of_one_le h1 h9
      subst hs
      have hposv : intVal (c :: cs) = (foldDigits (c :: cs) : Int) :=
        intVal_cons_of_ne cs hcdash
      have hpos : 1 ≤ foldDigits (c :: cs) := nzDigits_pos hnz
      rw [hposv]
      have hv0 : ¬((foldDigits (c :: cs) : Int) = 0) := by omega
      rw [if_neg hv0, if_pos (by omega)]
      have hhead : (c :: cs).headI = c := rfl
      rw [hhead, if_neg hc0]

theorem fromChars_neg_eq (t : List Char) :
    fromChars ('-' :: t) =
      (if t.takeWhile isDigit = [] then ⟨0, 0, .invalidArgument⟩
       else if -(foldDigits (t.takeWhile isDigit) : Int) < int64Min ∨
              int64Max < -(foldDigits (t.takeWhile isDigit) : Int)
       then ⟨0, 1 + (t.takeWhile isDigit).length, .resultOutOfRange⟩
       else ⟨-(foldDigits (t.takeWhile isDigit) : Int),
             1 + (t.takeWhile isDigit).length, .ok⟩) := by
  unfold fromChars
  simp only [List.headI, List.tail_cons, if_pos rfl, if_true]

theorem fromChars_pos_eq (s : List Char) (h : s.headI ≠ '-') :
    fromChars s =
      (if s.takeWhile isDigit = [] then ⟨0, 0, .invalidArgument⟩
       else if (foldDigits (s.takeWhile isDigit) : Int) < int64Min ∨
              int64Max < (foldDigits (s.takeWhile isDigit) : Int)
       then ⟨0, (s.takeWhile isDigit).length, .resultOutOfRange⟩
       else ⟨(foldDigits (s.takeWhile isDigit) : Int),
             (s.takeWhile isDigit).length, .ok⟩) := by
  unfold fromChars
  simp only [if_neg h]
  split
  · rfl
  · split
    · simp only [FCRes.mk.injEq]
      refine ⟨trivial, by omega, trivial⟩
    · simp only [FCRes.mk.injEq]
      refine ⟨trivial, by omega, trivial⟩

/-- Converse: whenever `read_integer` accepts, the token was grammatical
and the value is its decimal value, within the `long long` range. -/
theorem grammar_of_readIntegerTok_ok {s : List Char} {v : Int}
    (h : readIntegerTok s = .ok v) :
    intGrammar s = true ∧ intVal s = v ∧ int64Min ≤ v ∧ v ≤ int64Max := by
  have hsne : s ≠ [] := by
    intro hx; rw [hx] at h; exact absurd h (by simp [readIntegerTok])
  unfold readIntegerTok at h
  rw [if_neg hsne] at h
  by_cases hc : (fromChars s).consumed ≠ s.length ∨ (fromChars s).ec ≠ .ok
  · rw [if_pos hc] at h
    exact absurd h (by simp)
  · rw [if_neg hc] at h
    push_neg at hc
    obtain ⟨hcons, hec⟩ := hc
    by_cases hneg : s.headI = '-'
    · rcases s with _ | ⟨a, t⟩
      · exact absurd rfl hsne
      · simp only [List.headI] at hneg
        subst hneg
        rw [fromChars_neg_eq] at hcons hec h
        by_cases htw : t.takeWhile isDigit = []
        · rw [if_pos htw] at hec
          exact absurd hec (by simp)
        · rw [if_neg htw] at hcons hec h
          by_cases hoor : -(foldDigits (t.takeWhile isDigit) : Int) < int64Min ∨
              int64Max < -(foldDigits (t.takeWhile isDigit) : Int)
          · rw [if_pos hoor] at hec
            exact absurd hec (by simp)
          · rw [if_neg hoor] at hcons hec h
            dsimp only at hcons h
            simp only [List.length_cons] at hcons
            have htlen : (t.takeWhile isDigit).length = t.length := by omega
            have hall : ∀ c ∈ t, isDigit c = true := all_of_takeWhile_length htlen
            have htw_eq : t.takeWhile isDigit = t := takeWhile_eq_self_of_all hall
            rw [htw_eq] at h hoor
            have htne : t ≠ [] := by
              intro hx
              rw [hx] at htw
              exact htw rfl
            have htlen1 : 1 ≤ t.length := List.length_pos.mpr htne
            -- value is -(foldDigits t)
            by_cases hz : (-(foldDigits t : Int)) = 0
            · rw [if_pos hz] at h
              rw [if_pos
                (show ('-' :: t).length ≠ 1 by simp only [List.length_cons]; omega)] at h
              exact absurd h (by simp)
            · rw [if_neg hz] at h
              have hfpos : 1 ≤ foldDigits t := by omega
              rw [if_neg (by omega : ¬(0 < -(foldDigits t : Int)))] at h
              rw [if_neg
                (show ¬('-' :: t).length ≤ 1 by simp only [List.length_cons]; omega)] at h
              rcases t with _ | ⟨c, cs⟩
              · exact absurd rfl htne
              · have hget : ('-' :: c :: cs).getD 1 ' ' = c := rfl
                rw [hget] at h
                by_cases hc0 : c = '0'
                · rw [if_pos hc0] at h
                  exact absurd h (by simp)
                · rw [if_neg hc0] at h
                  simp only [Except.ok.injEq] at h
                  have hcdig : isDigit c = true := hall c (by simp)
                  obtain ⟨h1, h9⟩ := one_le_of_digit_ne_zero hcdig hc0
                  refine ⟨?_, ?_, ?_, ?_⟩
                  · unfold intGrammar
                    simp only [List.headI, List.tail_cons, if_pos rfl, if_true]
                    rw [Bool.or_eq_true]
                    right
                    simp only [nzDigits, Bool.and_eq_true, decide_eq_true_eq,
                      List.all_eq_true]
                    exact ⟨⟨h1, h9⟩, fun x hx => hall x (by simp [hx])⟩
                  · rw [intVal_neg, h]
                  · omega
                  · omega
    · rw [fromChars_pos_eq s hneg] at hcons hec h
      by_cases htw : s.takeWhile isDigit = []
      · rw [if_pos htw] at hec
        exact absurd hec (by simp)
      · rw [if_neg htw] at hcons hec h
        by_cases hoor : (foldDigits (s.takeWhile isDigit) : Int) < int64Min ∨
            int64Max < (foldDigits (s.takeWhile isDigit) : Int)
        · rw [if_pos hoor] at hec
          exact absurd hec (by simp)
        · rw [if_neg hoor] at hcons hec h
          dsimp only at hcons h
          have hall : ∀ c ∈ s, isDigit c = true := all_of_takeWhile_length hcons
          have htw_eq : s.takeWhile isDigit = s := takeWhile_eq_self_of_all hall
          rw [htw_eq] at h hoor
          rcases s with _ | ⟨c, cs⟩
          · exact absurd rfl hsne
          · have hvdef : intVal (c :: cs) = (foldDigits (c :: cs) : Int) :=
              intVal_cons_of_ne cs (isDigit_not_dash (hall c (by simp)))
            by_cases hz : ((foldDigits (c :: cs) : Int)) = 0
            · rw [if_pos hz] at h
              by_cases hl1 : (c :: cs).length ≠ 1
              · rw [if_pos hl1] at h
                exact absurd h (by simp)
              · rw [if_neg hl1] at h
                simp only [Except.ok.injEq] at h
                push_neg at hl1
                have hcs : cs = [] := by
                  rcases cs with _ | _
                  · rfl
                  · simp at hl1
                subst hcs
                have hc0 : c = '0' := by
                  have := foldDigits_cons c []
                  simp only [foldDigits_nil, List.length_nil, pow_zero,
                    Nat.mul_one, Nat.add_zero] at this
                  rw [(digitVal_zero_iff (hall c (by simp))).mp (by omega)]
                subst hc0
                refine ⟨rfl, ?_, by omega, by omega⟩
                rw [hvdef, h]
            · rw [if_neg hz] at h
              rw [if_pos (by omega : (0:Int) < (foldDigits (c :: cs) : Int))] at h
              by_cases hc0 : (c :: cs).headI = '0'
              · rw [if_pos hc0] at h
                exact absurd h (by simp)
              · rw [if_neg hc0] at h
                simp only [Except.ok.injEq] at h
                have hchead : (c :: cs).headI = c := rfl
                rw [hchead] at hc0
                obtain ⟨h1, h9⟩ := one_le_of_digit_ne_zero (hall c (by simp)) hc0
                refine ⟨?_, ?_, ?_, ?_⟩
                · unfold intGrammar
                  rw [Bool.or_eq_true]
                  right
                  rw [if_neg (by rw [hchead]; exact isDigit_not_dash (hall c (by simp)))]
                  simp only [nzDigits, Bool.and_eq_true, decide_eq_true_eq,
                    List.all_eq_true]
                  exact ⟨⟨h1, h9⟩, fun x hx => hall x (by simp [hx])⟩
                · rw [hvdef, h]
                · omega
                · omega

theorem nzDigits_of {s : List Char} (hne : s ≠ [])
    (h1 : '1' ≤ s.headI) (h9 : s.headI ≤ '9')
    (hall : ∀ c ∈ s, isDigit c = true) : nzDigits s = true := by
  rcases s with _ | ⟨c, cs⟩
  · exact absurd rfl hne
  · simp only [List.headI] at h1 h9
    simp only [nzDigits, Bool.and_eq_true, decide_eq_true_eq, List.all_eq_true]
    exact ⟨⟨h1, h9⟩, fun x hx => hall x (by simp [hx])⟩

theorem natRepr_head_ne_dash (n : Nat) : (natRepr n).headI ≠ '-' := by
  by_cases h : n = 0
  · subst h; decide
  · obtain ⟨h1, _⟩ := natRepr_headI n h
    rw [char_le_iff, show ('1' : Char).toNat = 49 from rfl] at h1
    simp only [ne_eq, char_eq_iff, show ('-' : Char).toNat = 45 from rfl]
    omega

theorem intGrammar_intRepr (v : Int) : intGrammar (intRepr v) = true := by
  rcases lt_trichotomy v 0 with hv | hv | hv
  · unfold intRepr
    rw [if_pos hv]
    unfold intGrammar
    simp only [List.headI, List.tail_cons, if_pos rfl, if_true, Bool.or_eq_true]
    right
    have hn : v.natAbs ≠ 0 := by omega
    obtain ⟨h1, h9⟩ := natRepr_headI v.natAbs hn
    exact nzDigits_of (natRepr_ne_nil _) h1 h9 (natRepr_all_digits _)
  · subst hv
    rfl
  · unfold intRepr
    rw [if_neg (by omega)]
    unfold intGrammar
    rw [if_neg (natRepr_head_ne_dash _), Bool.or_eq_true]
    right
    have hn : v.toNat ≠ 0 := by omega
    obtain ⟨h1, h9⟩ := natRepr_headI v.toNat hn
    exact nzDigits_of (natRepr_ne_nil _) h1 h9 (natRepr_all_digits _)

theorem intVal_intRepr (v : Int) : intVal (intRepr v) = v := by
  rcases lt_trichotomy v 0 with hv | hv | hv
  · unfold intRepr
    rw [if_pos hv, intVal_neg, foldDigits_natRepr]
    omega
  · subst hv
    rfl
  · unfold intRepr
    rw [if_neg (by omega)]
    rcases hs : natRepr v.toNat with _ | ⟨c, cs⟩
    · exact absurd hs (natRepr_ne_nil _)
    · have hhead : c ≠ '-' := by
        have := natRepr_head_ne_dash v.toNat
        rw [hs] at this
        exact this
      rw [intVal_cons_of_ne cs hhead, ← hs, foldDigits_natRepr]
      omega

theorem readIntegerTok_intRepr (v : Int) (h1 : int64Min ≤ v) (h2 : v ≤ int64Max) :
    readIntegerTok (intRepr v) = .ok v := by
  rw [readIntegerTok_of_grammar _ (intGrammar_intRepr v), intVal_intRepr,
    if_neg (by omega)]

theorem isWS_iff (c : Char) : isWS c = true ↔ c ∈ wsChars := by
  unfold isWS
  rw [List.contains_eq_any_beq]
  simp

theorem isWS_false_iff (c : Char) : isWS c = false ↔ ¬ c ∈ wsChars := by
  rw [← isWS_iff]
  simp

theorem intRepr_no_ws (v : Int) : ∀ c ∈ intRepr v, isWS c = false := by
  have hdig : ∀ c, isDigit c = true → isWS c = false := by
    intro c hc
    rw [isDigit_iff] at hc
    rw [isWS_false_iff]
    unfold wsChars
    simp only [List.mem_cons, List.not_mem_nil, or_false]
    push_neg
    refine ⟨?_, ?_, ?_, ?_, ?_, ?_⟩ <;>
      (simp only [ne_eq, char_eq_iff]; intro hx; rw [hx] at hc) <;>
      revert hc <;> decide
  intro c hc
  unfold intRepr at hc
  split at hc
  · rcases List.mem_cons.mp hc with rfl | hcm
    · decide
    · exact hdig c (natRepr_all_digits _ c hcm)
  · exact hdig c (natRepr_all_digits _ c hc)

theorem boundsUpdate_inv {low high v : Int} {b : BoundsRec}
    (hb : boundsInv low high b) (hlo : low ≤ v) (hhi : v ≤ high) :
    boundsInv low high (boundsUpdate b low high v) := by
  obtain ⟨hl, hh, h1, h2, h3, hm, hM⟩ := hb
  unfold boundsUpdate boundsInv
  dsimp only
  refine ⟨?_, ?_, ?_, ?_, ?_, ?_, ?_⟩
  · split <;> omega
  · split <;> omega
  · split <;> omega
  · split <;> split <;> omega
  · split <;> omega
  · intro hx
    rw [Bool.or_eq_true, decide_eq_true_eq] at hx
    rcases hx with hx | hx
    · have := hm hx
      split <;> omega
    · split <;> omega
  · intro hx
    rw [Bool.or_eq_true, decide_eq_true_eq] at hx
    rcases hx with hx | hx
    · have := hM hx
      split <;> omega
    · split <;> omega

theorem logConstraint_inv_init {low high v : Int} (hlo : low ≤ v) (hhi : v ≤ high) :
    boundsInv low high (logConstraint none low high v) :=
  boundsUpdate_inv
    ⟨rfl, rfl, hlo, le_refl v, hhi, fun hx => absurd hx Bool.false_ne_true,
      fun hx => absurd hx Bool.false_ne_true⟩ hlo hhi

theorem logConstraint_inv_step {low high v : Int} {b : BoundsRec}
    (hb : boundsInv low high b) (hlo : low ≤ v) (hhi : v ≤ high) :
    boundsInv low high (logConstraint (some b) low high v) :=
  boundsUpdate_inv hb hlo hhi

/-- Folding in-range events for a fixed declared range keeps the coverage
invariant; this is the content of the bounds-coverage claim. -/
theorem logFold_go_inv (low high : Int) :
    ∀ (events : List (Int × Int × Int)) (acc : Option BoundsRec),
      (∀ e ∈ events, e.1 = low ∧ e.2.1 = high) →
      (∀ e ∈ events, low ≤ e.2.2 ∧ e.2.2 ≤ high) →
      (∀ b0, acc = some b0 → boundsInv low high b0) →
      ∀ b, events.foldl (fun b e => some (logConstraint b e.1 e.2.1 e.2.2)) acc = some b →
        boundsInv low high b := by
  intro events
  induction events with
  | nil =>
    intro acc _ _ hacc b hb
    exact hacc b hb
  | cons e es ih =>
    intro acc hconst hrange hacc b hb
    simp only [List.foldl_cons] at hb
    obtain ⟨he1, he2⟩ := hconst e (by simp)
    obtain ⟨hr1, hr2⟩ := hrange e (by simp)
    refine ih _ (fun x hx => hconst x (by simp [hx]))
      (fun x hx => hrange x (by simp [hx])) ?_ b hb
    intro b0 hb0
    rw [Option.some.injEq] at hb0
    subst hb0
    rw [he1, he2]
    cases acc with
    | none => exact logConstraint_inv_init hr1 hr2
    | some bPrev => exact logConstraint_inv_step (hacc bPrev rfl) hr1 hr2

theorem logFold_inv (low high : Int) (events : List (Int × Int × Int))
    (hconst : ∀ e ∈ events, e.1 = low ∧ e.2.1 = high)
    (hrange : ∀ e ∈ events, low ≤ e.2.2 ∧ e.2.2 ≤ high) :
    ∀ b, logFold events = some b → boundsInv low high b :=
  fun b hb =>
    logFold_go_inv low high events none hconst hrange
      (fun b0 hb0 => absurd hb0 (by simp)) b hb

/-! ## Sampling lemmas -/

theorem uniformLoop_le {range shifts : Nat} :
    ∀ {fuel : Nat} {r : Rng} {res : Nat} {r1 : Rng},
      uniformLoop range shifts fuel r = some (res, r1) → res ≤ range := by
  intro fuel
  induction fuel with
  | zero =>
    intro r res r1 h
    exact absurd h (by simp [uniformLoop])
  | succ n ih =>
    intro r res r1 h
    rw [uniformLoop] at h
    split at h
    · rename_i hle
      rw [Option.some.injEq, Prod.mk.injEq] at h
      rw [← h.1]
      exact hle
    · exact ih h

theorem uniformInt_bounds {fuel : Nat} {low high : Int} {r : Rng} {v : Int} {r1 : Rng}
    (hlh : low ≤ high) (h : uniformInt fuel low high r = some (v, r1)) :
    low ≤ v ∧ v ≤ high := by
  unfold uniformInt at h
  split at h
  · rename_i heq
    rw [Option.some.injEq, Prod.mk.injEq] at h
    subst heq
    rw [← h.1]
    exact ⟨le_refl _, hlh⟩
  · dsimp only at h
    rw [Option.map_eq_some'] at h
    obtain ⟨⟨res, r2⟩, hres, hval⟩ := h
    have hle : res ≤ (high - low).toNat := uniformLoop_le hres
    rw [Prod.mk.injEq] at hval
    rw [← hval.1]
    constructor
    · omega
    · have : (res : Int) ≤ high - low := by omega
      omega

theorem drawN_spec {fuel : Nat} {low high : Int} (hlh : low ≤ high) :
    ∀ {count : Nat} {r : Rng} {vs : List Int} {r1 : Rng},
      drawN fuel low high count r = some (vs, r1) →
      vs.length = count ∧ ∀ v ∈ vs, low ≤ v ∧ v ≤ high := by
  intro count
  induction count with
  | zero =>
    intro r vs r1 h
    rw [drawN, Option.some.injEq, Prod.mk.injEq] at h
    rw [← h.1]
    exact ⟨rfl, by simp⟩
  | succ n ih =>
    intro r vs r1 h
    rw [drawN] at h
    split at h
    · exact absurd h (by simp)
    · rename_i v r2 huni
      split at h
      · exact absurd h (by simp)
      · rename_i vs2 r3 hdraw
        rw [Option.some.injEq, Prod.mk.injEq] at h
        obtain ⟨hlen, hall⟩ := ih hdraw
        rw [← h.1]
        refine ⟨by simp [hlen], ?_⟩
        intro x hx
        rcases List.mem_cons.mp hx with rfl | hxm
        · exact uniformInt_bounds hlh huni
        · exact hall x hxm

theorem rejectFresh_spec {ufuel : Nat} {low high : Int} (hlh : low ≤ high) :
    ∀ {fuel : Nat} {seen : List Int} {r : Rng} {w : Int} {r1 : Rng},
      rejectFresh ufuel low high fuel seen r = some (w, r1) →
      ¬ w ∈ seen ∧ low ≤ w ∧ w ≤ high := by
  intro fuel
  induction fuel with
  | zero =>
    intro seen r w r1 h
    exact absurd h (by simp [rejectFresh])
  | succ n ih =>
    intro seen r w r1 h
    rw [rejectFresh] at h
    split at h
    · exact absurd h (by simp)
    · rename_i v r2 huni
      split at h
      · exact ih h
      · rename_i hmem
        rw [Option.some.injEq, Prod.mk.injEq] at h
        rw [← h.1]
        exact ⟨hmem, uniformInt_bounds hlh huni⟩

theorem genUniqueVecLoop_spec {fuel : Nat} {low high : Int} (hlh : low ≤ high) :
    ∀ {count : Nat} {seen : List Int} {r : Rng} {vs : List Int} {r1 : Rng},
      genUniqueVecLoop fuel low high count seen r = some (vs, r1) →
      vs.length = count ∧ vs.Nodup ∧ (∀ v ∈ vs, ¬ v ∈ seen) ∧
        ∀ v ∈ vs, low ≤ v ∧ v ≤ high := by
  intro count
  induction count with
  | zero =>
    intro seen r vs r1 h
    rw [genUniqueVecLoop, Option.some.injEq, Prod.mk.injEq] at h
    rw [← h.1]
    exact ⟨rfl, List.nodup_nil, by simp, by simp⟩
  | succ n ih =>
    intro seen r vs r1 h
    rw [genUniqueVecLoop] at h
    split at h
    · exact absurd h (by simp)
    · rename_i w r2 hrej
      split at h
      · exact absurd h (by simp)
      · rename_i vs2 r3 hloop
        rw [Option.some.injEq, Prod.mk.injEq] at h
        obtain ⟨hfresh, hwlo, hwhi⟩ := rejectFresh_spec hlh hrej
        obtain ⟨hlen, hnd, hdisj, hrange⟩ := ih hloop
        rw [← h.1]
        refine ⟨by simp [hlen], ?_, ?_, ?_⟩
        · rw [List.nodup_cons]
          refine ⟨?_, hnd⟩
          intro hmem
          exact (hdisj w hmem) (by simp)
        · intro v hv
          rcases List.mem_cons.mp hv with rfl | hvm
          · exact hfresh
          · intro hvs
            exact (hdisj v hvm) (by simp [hvs])
        · intro v hv
          rcases List.mem_cons.mp hv with rfl | hvm
          · exact ⟨hwlo, hwhi⟩
          · exact hrange v hvm

theorem rangeList_length (low high : Int) :
    (rangeList low high).length = (high + 1 - low).toNat := by
  rw [rangeList, List.length_map, List.length_range]

theorem rangeList_mem {low high x : Int} :
    x ∈ rangeList low high ↔ low ≤ x ∧ x ≤ high := by
  unfold rangeList
  rw [List.mem_map]
  constructor
  · rintro ⟨k, hk, rfl⟩
    rw [List.mem_range] at hk
    omega
  · rintro ⟨h1, h2⟩
    refine ⟨(x - low).toNat, ?_, ?_⟩
    · rw [List.mem_range]
      omega
    · omega

theorem rangeList_nodup (low high : Int) : (rangeList low high).Nodup := by
  unfold rangeList
  refine List.Nodup.map ?_ (List.nodup_range _)
  intro a b hab
  simp only at hab
  omega

/-! ## Permutation lemmas for `Random::shuffle` -/

theorem set_getD_self : ∀ (l : List Int) (i : Nat), i < l.length → l.set i (l.getD i 0) = l := by
  intro l
  induction l with
  | nil => intro i hi; simp at hi
  | cons a t ih =>
    intro i hi
    cases i with
    | zero => simp
    | succ k =>
      simp only [List.getD_cons_succ, List.set_cons_succ, List.cons.injEq, true_and]
      exact ih k (by simpa using hi)

theorem swap_head_perm : ∀ (t : List Int) (k : Nat), k < t.length → ∀ (a : Int),
    List.Perm (t.getD k 0 :: t.set k a) (a :: t) := by
  intro t
  induction t with
  | nil => intro k hk; simp at hk
  | cons b t' ih =>
    intro k hk a
    cases k with
    | zero =>
      simp only [List.getD_cons_zero, List.set_cons_zero]
      exact List.Perm.swap a b t'
    | succ j =>
      simp only [List.getD_cons_succ, List.set_cons_succ]
      refine List.Perm.trans (List.Perm.swap b (t'.getD j 0) (t'.set j a)) ?_
      refine List.Perm.trans ((ih j (by simpa using hk) a).cons b) ?_
      exact List.Perm.swap a b t'

theorem swapL_perm : ∀ (l : List Int) (i j : Nat), i < l.length → j < l.length →
    List.Perm (swapL l i j) l := by
  intro l
  induction l with
  | nil => intro i j hi; simp at hi
  | cons a t ih =>
    intro i j hi hj
    cases i with
    | zero =>
      cases j with
      | zero =>
        unfold swapL
        simp only [List.getD_cons_zero, List.set_cons_zero]
        exact List.Perm.refl _
      | succ m =>
        unfold swapL
        simp only [List.getD_cons_zero, List.getD_cons_succ, List.set_cons_zero,
          List.set_cons_succ]
        exact swap_head_perm t m (by simpa using hj) a
    | succ k =>
      cases j with
      | zero =>
        unfold swapL
        simp only [List.getD_cons_zero, List.getD_cons_succ, List.set_cons_zero,
          List.set_cons_succ]
        exact swap_head_perm t k (by simpa using hi) a
      | succ m =>
        unfold swapL
        simp only [List.getD_cons_succ, List.set_cons_succ]
        exact (ih k m (by simpa using hi) (by simpa using hj)).cons a

theorem swapL_length (l : List Int) (i j : Nat) : (swapL l i j).length = l.length := by
  unfold swapL
  simp

theorem shuffleLoop_perm {fuel : Nat} :
    ∀ {i : Nat} {l : List Int} {r : Rng} {l1 : List Int} {r1 : Rng},
      i < l.length →
      shuffleLoop fuel i l r = some (l1, r1) → List.Perm l1 l := by
  intro i
  induction i with
  | zero =>
    intro l r l1 r1 hi h
    rw [shuffleLoop, Option.some.injEq, Prod.mk.injEq] at h
    rw [← h.1]
  | succ k ih =>
    intro l r l1 r1 hi h
    rw [shuffleLoop] at h
    split at h
    · exact absurd h (by simp)
    · rename_i j r2 huni
      obtain ⟨hj0, hjk⟩ := uniformInt_bounds (by omega) huni
      have hjlen : j.toNat < l.length := by omega
      have hswap := swapL_perm l (k + 1) j.toNat hi hjlen
      have hlen : k < (swapL l (k + 1) j.toNat).length := by
        rw [swapL_length]
        omega
      exact (ih hlen h).trans hswap

theorem shuffleList_perm {fuel : Nat} {l : List Int} {r : Rng} {l1 : List Int} {r1 : Rng}
    (h : shuffleList fuel l r = some (l1, r1)) : List.Perm l1 l := by
  unfold shuffleList at h
  split at h
  · rw [Option.some.injEq, Prod.mk.injEq] at h
    rw [← h.1]
  · rename_i n hn
    exact shuffleLoop_perm (by omega) h

/-! ## Sorted / index-shift lemmas for monotone generation -/

theorem addIdx_length : ∀ (l : List Int) (k : Int), (addIdx l k).length = l.length := by
  intro l
  induction l with
  | nil => intro k; rfl
  | cons v vs ih => intro k; simp [addIdx, ih]

theorem addIdx_bounds : ∀ (l : List Int) (k lo H : Int),
    (∀ v ∈ l, lo ≤ v ∧ v ≤ H) →
    ∀ x ∈ addIdx l k, lo + k ≤ x ∧ x ≤ H + k + l.length - 1 := by
  intro l
  induction l with
  | nil => intro k lo H _ x hx; exact absurd hx (by simp [addIdx])
  | cons v vs ih =>
    intro k lo H hall x hx
    rw [addIdx] at hx
    rcases List.mem_cons.mp hx with rfl | hxm
    · obtain ⟨h1, h2⟩ := hall v (by simp)
      constructor
      · omega
      · have : (0 : Int) ≤ vs.length := by positivity
        simp only [List.length_cons]
        push_cast
        omega
    · obtain ⟨h1, h2⟩ := ih (k + 1) lo H (fun w hw => hall w (by simp [hw])) x hxm
      constructor
      · omega
      · simp only [List.length_cons]
        push_cast
        omega

theorem addIdx_chain : ∀ (l : List Int) (k : Int),
    List.Chain' (· ≤ ·) l →
    List.Chain' (fun a b => a + 1 ≤ b) (addIdx l k) := by
  intro l
  induction l with
  | nil => intro k _; simp [addIdx]
  | cons a vs ih =>
    intro k hch
    cases vs with
    | nil => simp [addIdx]
    | cons b t =>
      rw [List.chain'_cons] at hch
      rw [addIdx, addIdx, List.chain'_cons]
      constructor
      · omega
      · have := ih (k + 1) hch.2
        rw [addIdx] at this
        exact this

theorem isort_le_chain (l : List Int) :
    List.Chain' (· ≤ ·) (List.insertionSort (· ≤ ·) l) :=
  (List.sorted_insertionSort _ l).chain'

theorem isort_perm_facts (l : List Int) :
    List.Perm (List.insertionSort (· ≤ ·) l) l :=
  List.perm_insertionSort _ l

/-! ## `gen_numbers` specifications -/

/-- Strict increasing integer vector generation: `count` values in
`[low, high]`, consecutive values apart by at least 1. -/
theorem genNumbersInt_strictInc_spec {fuel count : Nat} {low high : Int}
    {r : Rng} {vs : List Int} {r1 : Rng}
    (hle : (count : Int) ≤ high - low + 1)
    (h : genNumbersInt fuel .strictlyIncreasing count low high r = some (vs, r1)) :
    vs.length = count ∧ List.Chain' (fun a b => a + 1 ≤ b) vs ∧
      ∀ v ∈ vs, low ≤ v ∧ v ≤ high := by
  unfold genNumbersInt at h
  simp only [reduceCtorEq, if_false, Tag.uniq, Tag.strict, Tag.decr, if_true] at h
  split at h
  · exact absurd h (by simp)
  · rename_i ds r2 hdraw
    rw [Option.some.injEq, Prod.mk.injEq] at h
    have hlh2 : low ≤ high - (count : Int) + 1 := by omega
    obtain ⟨hdlen, hdb⟩ := drawN_spec hlh2 hdraw
    set sorted := List.insertionSort (· ≤ ·) ds with hsorted
    have hperm := isort_perm_facts ds
    have hslen : sorted.length = count := by
      rw [hperm.length_eq, hdlen]
    have hsb : ∀ v ∈ sorted, low ≤ v ∧ v ≤ high - (count : Int) + 1 := by
      intro v hv
      exact hdb v (hperm.mem_iff.mp hv)
    rw [← h.1]
    refine ⟨by rw [addIdx_length, hslen], addIdx_chain _ _ (isort_le_chain ds), ?_⟩
    intro x hx
    obtain ⟨h1, h2⟩ := addIdx_bounds sorted 0 low (high - (count : Int) + 1) hsb x hx
    rw [hslen] at h2
    constructor
    · omega
    · omega

/-- The strictly decreasing variant is the strictly increasing vector
reversed (same draws, then `reverse`). -/
theorem genNumbersInt_strictDec_eq (fuel count : Nat) (low high : Int) (r : Rng) :
    genNumbersInt fuel .strictlyDecreasing count low high r =
      (genNumbersInt fuel .strictlyIncreasing count low high r).map
        fun p => (p.1.reverse, p.2) := by
  unfold genNumbersInt
  simp only [reduceCtorEq, if_false, Tag.uniq, Tag.strict, Tag.decr, if_true]
  split
  · rfl
  · rfl

/-- Unique integer vector generation: `count` pairwise distinct values in
`[low, high]` whenever the range is large enough. -/
theorem genNumbersInt_unique_spec {fuel count : Nat} {low high : Int}
    {r : Rng} {vs : List Int} {r1 : Rng}
    (hlh : low ≤ high) (hcnt : (count : Int) ≤ high - low + 1)
    (h : genNumbersInt fuel .unique count low high r = some (vs, r1)) :
    vs.length = count ∧ vs.Nodup ∧ ∀ v ∈ vs, low ≤ v ∧ v ≤ high := by
  unfold genNumbersInt at h
  simp only [reduceCtorEq, if_false, Tag.uniq, if_true] at h
  split at h
  · obtain ⟨hlen, hnd, _, hrange⟩ := genUniqueVecLoop_spec hlh h
    exact ⟨hlen, hnd, hrange⟩
  · rename_i hdense
    split at h
    · exact absurd h (by simp)
    · rename_i l1 r2 hshuf
      rw [Option.some.injEq, Prod.mk.injEq] at h
      have hperm := shuffleList_perm hshuf
      have hl1len : l1.length = (high + 1 - low).toNat := by
        rw [hperm.length_eq, rangeList_length]
      have hl1nd : l1.Nodup := hperm.symm.nodup (rangeList_nodup low high)
      rw [← h.1]
      refine ⟨?_, (List.take_sublist _ _).nodup hl1nd, ?_⟩
      · rw [List.length_take, hl1len]
        omega
      · intro v hv
        have hvm : v ∈ l1 := (List.take_sublist _ _).mem hv
        exact rangeList_mem.mp (hperm.mem_iff.mp hvm)

theorem uInv_empty (low high : Int) : uInv low high ⟨[], [], false⟩ := by
  refine ⟨by simp, ?_, fun _ => rfl⟩
  intro hx
  exact absurd hx (by simp)

theorem uVals_empty (low high x : Int) : uVals low high ⟨[], [], false⟩ x ↔ False := by
  unfold uVals
  simp

theorem rejectInsert_spec {ufuel : Nat} {low high : Int} (hlh : low ≤ high) :
    ∀ {fuel : Nat} {seen : List Int} {r : Rng} {v : Int} {seen1 : List Int} {r1 : Rng},
      rejectInsert ufuel low high fuel seen r = some (v, seen1, r1) →
      ¬ v ∈ seen ∧ seen1 = v :: seen ∧ low ≤ v ∧ v ≤ high := by
  intro fuel
  induction fuel with
  | zero =>
    intro seen r v seen1 r1 h
    exact absurd h (by simp [rejectInsert])
  | succ n ih =>
    intro seen r v seen1 r1 h
    rw [rejectInsert] at h
    split at h
    · exact absurd h (by simp)
    · rename_i w r2 huni
      split at h
      · exact ih h
      · rename_i hmem
        rw [Option.some.injEq, Prod.mk.injEq] at h
        obtain ⟨hwv, h2⟩ := h
        rw [Prod.mk.injEq] at h2
        subst hwv
        exact ⟨hmem, h2.1.symm, uniformInt_bounds hlh huni⟩

theorem getLast?_mem_of_ne_nil {l : List Int} {v : Int} (h : l.getLast? = some v) :
    v ∈ l := by
  rcases l with _ | ⟨a, t⟩
  · exact absurd h (by simp)
  · rw [List.getLast?_eq_getLast _ (by simp)] at h
    rw [Option.some.injEq] at h
    rw [← h]
    exact List.getLast_mem _

theorem dropLast_getLast_decomp {l : List Int} {v : Int} (h : l.getLast? = some v) :
    l = l.dropLast ++ [v] := by
  rcases l with _ | ⟨a, t⟩
  · exact absurd h (by simp)
  · rw [List.getLast?_eq_getLast _ (by simp)] at h
    rw [Option.some.injEq] at h
    rw [← h]
    exact (List.dropLast_append_getLast (by simp)).symm

theorem uVals_usePool {low high x : Int} {st : UniqueIntState} (hup : st.usePool = true) :
    uVals low high st x ↔ (x ∈ st.seenSet ∨ (low ≤ x ∧ x ≤ high)) ∧ ¬ x ∈ st.pool := by
  unfold uVals
  rw [hup]
  simp

theorem uVals_noPool {low high x : Int} {st : UniqueIntState} (hup : st.usePool = false) :
    uVals low high st x ↔ x ∈ st.seenSet := by
  unfold uVals
  rw [hup]
  simp

/-- Behaviour of `gen_number<long long, UniqueTag>` on one call: the value
is fresh, in range, and the handed-out set grows by exactly that value. -/
theorem genUniqueScalar_spec {fuel : Nat} {low high : Int} {st : UniqueIntState}
    {r : Rng} {v : Int} {st1 : UniqueIntState} {r1 : Rng}
    (hlh : low ≤ high) (hinv : uInv low high st)
    (h : genUniqueScalar fuel low high st r = some (v, st1, r1)) :
    (low ≤ v ∧ v ≤ high) ∧ ¬ uVals low high st v ∧
      (∀ x, uVals low high st1 x ↔ (uVals low high st x ∨ x = v)) ∧
      uInv low high st1 := by
  obtain ⟨hseen, hpool, hnopool⟩ := hinv
  unfold genUniqueScalar at h
  by_cases hup : st.usePool = true
  · rw [if_pos hup] at h
    obtain ⟨hnd, hpb, hpdisj⟩ := hpool hup
    split at h
    · exact absurd h (by simp)
    · rename_i w hlast
      rw [Option.some.injEq, Prod.mk.injEq] at h
      obtain ⟨hwv, h2⟩ := h
      rw [Prod.mk.injEq] at h2
      obtain ⟨hst1, -⟩ := h2
      subst hwv
      subst hst1
      have hvp : w ∈ st.pool := getLast?_mem_of_ne_nil hlast
      have hdecomp := dropLast_getLast_decomp hlast
      have hvb := hpb w hvp
      have hvdl : ¬ w ∈ st.pool.dropLast := by
        intro hx
        have hnd2 := hnd
        rw [hdecomp, List.nodup_append] at hnd2
        exact (hnd2.2.2 hx) (by simp)
      have hxsplit : ∀ x : Int, x ∈ st.pool ↔ x ∈ st.pool.dropLast ∨ x = w := by
        intro x
        conv_lhs => rw [hdecomp]
        simp [List.mem_append]
      refine ⟨hvb, ?_, ?_, ?_⟩
      · rw [uVals_usePool hup]
        rintro ⟨-, hB⟩
        exact hB hvp
      · intro x
        rw [uVals_usePool (show ({st with pool := st.pool.dropLast} :
              UniqueIntState).usePool = true from hup),
          uVals_usePool hup, hxsplit x]
        dsimp only
        constructor
        · rintro ⟨hA, hB⟩
          by_cases hxv : x = w
          · exact Or.inr hxv
          · refine Or.inl ⟨hA, ?_⟩
            rintro (hx | hx)
            · exact hB hx
            · exact hxv hx
        · rintro (⟨hA, hB⟩ | rfl)
          · exact ⟨hA, fun hx => hB (Or.inl hx)⟩
          · exact ⟨Or.inr hvb, hvdl⟩
      · refine ⟨by dsimp only; exact hseen, ?_, ?_⟩
        · intro _
          dsimp only
          refine ⟨?_, ?_, ?_⟩
          · rw [hdecomp, List.nodup_append] at hnd
            exact hnd.1
          · intro u hu
            exact hpb u (by rw [hdecomp]; simp [hu])
          · intro u hu
            exact hpdisj u (by rw [hdecomp]; simp [hu])
        · intro hx
          dsimp only at hx
          rw [hup] at hx
          exact absurd hx (by simp)
  · rw [if_neg hup] at h
    have hupf : st.usePool = false := by
      rcases hb : st.usePool
      · rfl
      · exact absurd hb hup
    split at h
    · exact absurd h (by simp)
    · rename_i w seen1 r2 hrej
      obtain ⟨hfresh, hseq, hwlo, hwhi⟩ := rejectInsert_spec hlh hrej
      have hnotvals : ¬ uVals low high st w := by
        rw [uVals_noPool hupf]
        exact hfresh
      subst hseq
      split at h <;>
        (rw [Option.some.injEq, Prod.mk.injEq] at h
         obtain ⟨hwv, h2⟩ := h
         rw [Prod.mk.injEq] at h2
         obtain ⟨hst1, -⟩ := h2
         subst hwv
         subst hst1)
      · -- materialised the pool
        refine ⟨⟨hwlo, hwhi⟩, hnotvals, ?_, ?_⟩
        · intro x
          rw [uVals_usePool (show (⟨w :: st.seenSet,
                (rangeList low high).filter (fun x => decide (¬ x ∈ w :: st.seenSet)),
                true⟩ : UniqueIntState).usePool = true from rfl),
            uVals_noPool hupf]
          dsimp only
          rw [List.mem_filter]
          simp only [decide_eq_true_eq]
          constructor
          · rintro ⟨hA, hB⟩
            by_cases hxs : x ∈ w :: st.seenSet
            · rcases List.mem_cons.mp hxs with rfl | hx2
              · exact Or.inr rfl
              · exact Or.inl hx2
            · exfalso
              rcases hA with hA | hA
              · exact hxs hA
              · exact hB ⟨rangeList_mem.mpr hA, hxs⟩
          · rintro (hx | rfl)
            · exact ⟨Or.inl (by simp [hx]), fun hc => hc.2 (by simp [hx])⟩
            · exact ⟨Or.inl (by simp), fun hc => hc.2 (by simp)⟩
        · refine ⟨?_, ?_, ?_⟩
          · intro x hx
            dsimp only at hx
            rcases List.mem_cons.mp hx with rfl | hx2
            · exact ⟨hwlo, hwhi⟩
            · exact hseen x hx2
          · intro _
            dsimp only
            refine ⟨(rangeList_nodup low high).filter _, ?_, ?_⟩
            · intro x hx
              rw [List.mem_filter] at hx
              exact rangeList_mem.mp hx.1
            · intro x hx
              rw [List.mem_filter] at hx
              have hx2 := hx.2
              simp only [decide_eq_true_eq] at hx2
              exact hx2
          · intro hx
            exact absurd hx (by simp)
      · -- still rejection sampling
        refine ⟨⟨hwlo, hwhi⟩, hnotvals, ?_, ?_⟩
        · intro x
          rw [uVals_noPool (show (⟨w :: st.seenSet, st.pool, st.usePool⟩ :
                UniqueIntState).usePool = false from hupf),
            uVals_noPool hupf]
          dsimp only
          rw [List.mem_cons]
          constructor
          · rintro (rfl | hx)
            · exact Or.inr rfl
            · exact Or.inl hx
          · rintro (hx | rfl)
            · exact Or.inr hx
            · exact Or.inl rfl
        · refine ⟨?_, ?_, ?_⟩
          · intro x hx
            dsimp only at hx
            rcases List.mem_cons.mp hx with rfl | hx2
            · exact ⟨hwlo, hwhi⟩
            · exact hseen x hx2
          · intro hx
            dsimp only at hx
            rw [hupf] at hx
            exact absurd hx (by simp)
          · intro _
            dsimp only
            exact hnopool hupf

theorem genNumbersInt_arb_spec {fuel count : Nat} {low high : Int}
    {r : Rng} {vs : List Int} {r1 : Rng}
    (hlh : low ≤ high)
    (h : genNumbersInt fuel .arbitrary count low high r = some (vs, r1)) :
    vs.length = count ∧ ∀ v ∈ vs, low ≤ v ∧ v ≤ high := by
  unfold genNumbersInt at h
  rw [if_pos rfl] at h
  exact drawN_spec hlh h

theorem genNumbersInt_inc_spec {fuel count : Nat} {low high : Int}
    {r : Rng} {vs : List Int} {r1 : Rng}
    (hlh : low ≤ high)
    (h : genNumbersInt fuel .increasing count low high r = some (vs, r1)) :
    vs.length = count ∧ List.Chain' (· ≤ ·) vs ∧ ∀ v ∈ vs, low ≤ v ∧ v ≤ high := by
  unfold genNumbersInt at h
  simp only [reduceCtorEq, if_false, Tag.uniq, Tag.strict, Tag.decr, if_true] at h
  split at h
  · exact absurd h (by simp)
  · rename_i ds r2 hdraw
    rw [Option.some.injEq, Prod.mk.injEq] at h
    obtain ⟨hdlen, hdb⟩ := drawN_spec hlh hdraw
    have hperm := isort_perm_facts ds
    rw [← h.1]
    refine ⟨by rw [hperm.length_eq, hdlen], isort_le_chain ds, ?_⟩
    intro v hv
    exact hdb v (hperm.mem_iff.mp hv)

theorem genNumbersInt_dec_eq (fuel count : Nat) (low high : Int) (r : Rng) :
    genNumbersInt fuel .decreasing count low high r =
      (genNumbersInt fuel .increasing count low high r).map
        fun p => (p.1.reverse, p.2) := by
  unfold genNumbersInt
  simp only [reduceCtorEq, if_false, Tag.uniq, Tag.strict, Tag.decr, if_true]
  split
  · rfl
  · rfl

/-! ## Association-map lemmas -/

theorem mlookup_mupdate_self {α : Type} (m : SMap α) (k : String) (v : α) :
    mlookup (mupdate m k v) k = some v := by
  induction m with
  | nil => simp [mlookup, mupdate, List.find?]
  | cons p rest ih =>
    by_cases hp : p.1 = k
    · simp [mupdate, hp, mlookup, List.find?]
    · simp only [mupdate, if_neg hp]
      simp only [mlookup, List.find?] at ih ⊢
      rw [decide_eq_false hp]
      exact ih

theorem mlookup_mupdate_other {α : Type} (m : SMap α) (k : String) (v : α)
    (k' : String) (h : k' ≠ k) :
    mlookup (mupdate m k v) k' = mlookup m k' := by
  induction m with
  | nil =>
    simp only [mupdate, mlookup, List.find?]
    rw [decide_eq_false (by intro hx; exact h hx.symm)]
  | cons p rest ih =>
    by_cases hp : p.1 = k
    · simp only [mupdate, if_pos hp, mlookup, List.find?]
      rw [decide_eq_false (by intro hx; exact h hx.symm),
        decide_eq_false (by rw [hp]; intro hx; exact h hx.symm)]
    · simp only [mupdate, if_neg hp]
      simp only [mlookup, List.find?] at ih ⊢
      by_cases hk : p.1 = k'
      · rw [decide_eq_true hk]
      · rw [decide_eq_false hk]
        exact ih

theorem mlookup_mremove_self {α : Type} (m : SMap α) (k : String) :
    mlookup (mremove m k) k = none := by
  induction m with
  | nil => rfl
  | cons p rest ih =>
    by_cases hp : p.1 = k
    · simp only [mremove, List.filter]
      rw [decide_eq_false (by simpa using hp)]
      exact ih
    · simp only [mremove, List.filter]
      rw [decide_eq_true (by simpa using hp)]
      simp only [mlookup, List.find?]
      rw [decide_eq_false hp]
      exact ih

theorem mlookup_mremove_other {α : Type} (m : SMap α) (k k' : String) (h : k' ≠ k) :
    mlookup (mremove m k) k' = mlookup m k' := by
  induction m with
  | nil => rfl
  | cons p rest ih =>
    by_cases hp : p.1 = k
    · simp only [mremove, List.filter]
      rw [decide_eq_false (by simpa using hp)]
      simp only [mlookup, List.find?]
      rw [decide_eq_false (by rw [hp]; intro hx; exact h hx.symm)]
      exact ih
    · simp only [mremove, List.filter]
      rw [decide_eq_true (by simpa using hp)]
      simp only [mlookup, List.find?]
      by_cases hk : p.1 = k'
      · rw [decide_eq_true hk]
      · rw [decide_eq_false hk]
        exact ih

/-! ## `check_number` success lemmas -/

theorem checkNumber_nonunique_ok {tag : Tag} {name : String} {low high v : Int}
    {st : RState} (hnu : tag.uniq = false) (hr : ¬(v < low ∨ high < v))
    (hok : ∀ last, mlookup st.lastSeen name = some last →
       (tag.incr = true → last ≤ v) ∧ (tag.decr = true → v ≤ last) ∧
       (tag.strict = true → v ≠ last)) :
    checkNumber tag name low high v st =
      .ok { st with
        lastSeen := mupdate st.lastSeen name v,
        bounds := mupdate st.bounds name
          (logConstraint (mlookup st.bounds name) low high v) } := by
  unfold checkNumber
  rw [if_neg hr, hnu]
  simp only [Bool.false_eq_true, if_false]
  cases hlast : mlookup st.lastSeen name with
  | none => rfl
  | some last =>
    obtain ⟨hi, hd, hs⟩ := hok last hlast
    dsimp only
    rw [if_neg (by rintro ⟨hInc, hlt⟩; exact hlt (hi hInc)),
      if_neg (by rintro ⟨hDec, hlt⟩; exact hlt (hd hDec)),
      if_neg (by rintro ⟨hStr, heq⟩; exact (hs hStr) heq)]

theorem checkNumber_unique_ok {name : String} {low high v : Int} {st : RState}
    (hr : ¬(v < low ∨ high < v))
    (hfresh : ¬ v ∈ (mlookup st.seen name).getD []) :
    checkNumber .unique name low high v st =
      .ok { st with
        seen := mupdate st.seen name (v :: (mlookup st.seen name).getD []),
        bounds := mupdate st.bounds name
          (logConstraint (mlookup st.bounds name) low high v) } := by
  unfold checkNumber
  rw [if_neg hr]
  simp only [Tag.uniq, if_true]
  rw [if_neg hfresh]

theorem checkNumber_unique_dup {name : String} {low high v : Int} {st : RState}
    (hdup : v ∈ (mlookup st.seen name).getD []) :
    checkNumber .unique name low high v st = .error () ∨
      (v < low ∨ high < v) := by
  by_cases hr : v < low ∨ high < v
  · exact Or.inr hr
  · left
    unfold checkNumber
    rw [if_neg hr]
    simp only [Tag.uniq, if_true]
    rw [if_pos hdup]

theorem takeWhile_token {tok rest : List Char}
    (hnws : ∀ c ∈ tok, isWS c = false) (hb : wsBoundary rest) :
    (tok ++ rest).takeWhile (fun d => ! isWS d) = tok ∧
    (tok ++ rest).dropWhile (fun d => ! isWS d) = rest := by
  induction tok with
  | nil =>
    rcases hb with rfl | ⟨c, cs, rfl, hc⟩
    · exact ⟨rfl, rfl⟩
    · simp only [List.nil_append, List.takeWhile_cons, List.dropWhile_cons, hc]
      exact ⟨rfl, rfl⟩
  | cons a t ih =>
    have ha : isWS a = false := hnws a (by simp)
    obtain ⟨h1, h2⟩ := ih (fun c hc => hnws c (by simp [hc]))
    simp only [List.cons_append, List.takeWhile_cons, List.dropWhile_cons, ha]
    simp only [Bool.not_false, if_true, List.cons.injEq, true_and]
    exact ⟨h1, h2⟩

theorem intRepr_ne_nil (v : Int) : intRepr v ≠ [] := by
  unfold intRepr
  split
  · simp
  · exact natRepr_ne_nil _

theorem getStringR_token {tok rest : List Char} {st : RState}
    (hin : st.input = tok ++ rest) (hne : tok ≠ [])
    (hnws : ∀ c ∈ tok, isWS c = false) (hb : wsBoundary rest) :
    getStringR st = .ok (tok, { st with input := rest }) := by
  obtain ⟨h1, h2⟩ := takeWhile_token hnws hb
  rcases htok : tok with _ | ⟨a, t⟩
  · exact absurd htok hne
  · subst htok
    unfold getStringR
    rw [hin]
    simp only [List.cons_append]
    rw [if_neg (by rw [hnws a (by simp)]; simp)]
    rw [show a :: (t ++ rest) = (a :: t) ++ rest from rfl, h1, h2]

theorem readIntegerCmd_gen {tag : Tag} {name : String} {low high v : Int}
    {rest : List Char} {st : RState}
    (hin : st.input = intRepr v ++ rest) (hb : wsBoundary rest)
    (h64lo : int64Min ≤ v) (h64hi : v ≤ int64Max) :
    readIntegerCmd tag name low high st =
      (checkNumber tag name low high v { st with input := rest }).map
        (fun st2 => (v, st2)) := by
  unfold readIntegerCmd
  rw [getStringR_token hin (intRepr_ne_nil v) (intRepr_no_ws v) hb]
  show (Except.ok (intRepr v, _) >>= _) = _
  rw [show ∀ (x : List Char × RState) (f : List Char × RState → Except Unit (Int × RState)),
      (Except.ok x >>= f) = f x from fun x f => rfl]
  dsimp only
  rw [readIntegerTok_intRepr v h64lo h64hi]
  dsimp only
  cases hc : checkNumber tag name low high v { st with input := rest } with
  | error e => rfl
  | ok st2 => rfl

theorem isWS_sepChar (sep : Sep) : isWS (sepChar sep) = true := by
  cases sep <;> rfl

theorem readSep_sepChar {sep : Sep} {rest : List Char} {st : RState}
    (hin : st.input = sepChar sep :: rest) :
    readSep sep st = .ok { st with input := rest } := by
  cases sep
  · show readSpace st = _
    unfold readSpace
    rw [hin]
    rfl
  · show readNewline st = _
    unfold readNewline
    rw [hin]
    rfl

theorem readNewline_cons {rest : List Char} {st : RState}
    (hin : st.input = '\n' :: rest) :
    readNewline st = .ok { st with input := rest } := by
  unfold readNewline
  rw [hin]
  rfl

theorem joinVals_eq (vs : List Int) (c : Char) :
    joinVals vs c = elemsBytes vs c ++ ['\n'] := by
  induction vs with
  | nil => rfl
  | cons v vs ih =>
    cases vs with
    | nil => rfl
    | cons w ws =>
      have h1 : joinVals (v :: w :: ws) c = intRepr v ++ c :: joinVals (w :: ws) c := rfl
      have h2 : elemsBytes (v :: w :: ws) c = intRepr v ++ c :: elemsBytes (w :: ws) c := rfl
      rw [h1, h2, ih]
      simp

theorem Tag.uniq_iff {tag : Tag} : tag.uniq = true ↔ tag = .unique := by
  cases tag <;> simp [Tag.uniq]

/-- One element step of a vector read: the tag-specific check succeeds,
and the per-name state advances from `done` to `done ++ [v]`. -/
theorem checkNumber_step {tag : Tag} {name : String} {low high v : Int}
    {st : RState} {done tail : List Int}
    (hr : ¬(v < low ∨ high < v))
    (hnd : tag.uniq = true → (done ++ v :: tail).Nodup)
    (hinc : tag.incr = true → List.Chain' (· ≤ ·) (done ++ v :: tail))
    (hdec : tag.decr = true → List.Chain' (fun a b => b ≤ a) (done ++ v :: tail))
    (hstr : tag.strict = true → List.Chain' (fun a b => a ≠ b) (done ++ v :: tail))
    (hseen : tag.uniq = true → ∀ x, x ∈ (mlookup st.seen name).getD [] ↔ x ∈ done)
    (hlast : tag.uniq = false → mlookup st.lastSeen name = done.getLast?) :
    ∃ st2, checkNumber tag name low high v st = .ok st2 ∧
      st2.input = st.input ∧
      (tag.uniq = true → ∀ x, x ∈ (mlookup st2.seen name).getD [] ↔ x ∈ done ++ [v]) ∧
      (tag.uniq = false → mlookup st2.lastSeen name = (done ++ [v]).getLast?) ∧
      (∀ n2, n2 ≠ name → mlookup st2.seen n2 = mlookup st.seen n2) := by
  by_cases hu : tag.uniq = true
  · obtain rfl := Tag.uniq_iff.mp hu
    have hnodup := hnd rfl
    have hiff := hseen rfl
    have hfresh : ¬ v ∈ (mlookup st.seen name).getD [] := by
      rw [hiff v]
      intro hvdone
      have hdisj := (List.nodup_append.mp hnodup).2.2
      exact (hdisj hvdone) (by simp)
    refine ⟨_, checkNumber_unique_ok hr hfresh, rfl, ?_, ?_, ?_⟩
    · intro _ x
      dsimp only
      rw [mlookup_mupdate_self]
      simp only [Option.getD_some]
      rw [List.mem_cons, hiff x, List.mem_append, List.mem_singleton]
      tauto
    · intro hfalse
      exact absurd hfalse (by simp [Tag.uniq])
    · intro n2 hn2
      dsimp only
      exact mlookup_mupdate_other _ _ _ _ hn2
  · have huf : tag.uniq = false := by
      rcases hb : tag.uniq
      · rfl
      · exact absurd hb hu
    have hok : ∀ last, mlookup st.lastSeen name = some last →
        (tag.incr = true → last ≤ v) ∧ (tag.decr = true → v ≤ last) ∧
        (tag.strict = true → v ≠ last) := by
      intro last hlk
      rw [hlast huf] at hlk
      refine ⟨?_, ?_, ?_⟩
      · intro hflag
        have hch := hinc hflag
        rw [List.chain'_append] at hch
        exact hch.2.2 last hlk v rfl
      · intro hflag
        have hch := hdec hflag
        rw [List.chain'_append] at hch
        exact hch.2.2 last hlk v rfl
      · intro hflag
        have hch := hstr hflag
        rw [List.chain'_append] at hch
        exact fun hvl => (hch.2.2 last hlk v rfl) hvl.symm
    refine ⟨_, checkNumber_nonunique_ok huf hr hok, rfl, ?_, ?_, ?_⟩
    · intro htrue
      exact absurd htrue hu
    · intro _
      dsimp only
      rw [mlookup_mupdate_self, List.getLast?_concat]
    · intro n2 hn2
      rfl

/-- Unfolding of the element loop at one element. -/
theorem readElems_one (tag : Tag) (name : String) (low high : Int) (sep : Sep)
    (st : RState) :
    readElems tag name low high sep 1 st =
      (readIntegerCmd tag name low high st).map (fun p => ([p.1], p.2)) := by
  show (do
    let p ← readIntegerCmd tag name low high st
    (pure ([p.1], p.2) : Except Unit (List Int × RState))) = _
  cases readIntegerCmd tag name low high st <;> rfl

/-- Unfolding of the element loop at two or more elements. -/
theorem readElems_succ2 (tag : Tag) (name : String) (low high : Int) (sep : Sep)
    (m : Nat) (st : RState) :
    readElems tag name low high sep (m + 2) st =
      (do
        let p ← readIntegerCmd tag name low high st
        let st2 ← readSep sep p.2
        let q ← readElems tag name low high sep (m + 1) st2
        pure (p.1 :: q.1, q.2)) := rfl

/-- Reading back a generated vector element-by-element: given the
monotonicity/uniqueness facts about the value list, the element loop of
`read_numbers` accepts and consumes exactly the vector's bytes. -/
theorem readElems_go (tag : Tag) (name : String) (low high : Int) (sep : Sep)
    (h64lo : int64Min ≤ low) (h64hi : high ≤ int64Max) :
    ∀ (vs done : List Int) (st : RState) (rest : List Char),
      st.input = elemsBytes vs (sepChar sep) ++ rest →
      wsBoundary rest →
      (∀ v ∈ vs, low ≤ v ∧ v ≤ high) →
      (tag.uniq = true → (done ++ vs).Nodup) →
      (tag.incr = true → List.Chain' (· ≤ ·) (done ++ vs)) →
      (tag.decr = true → List.Chain' (fun a b => b ≤ a) (done ++ vs)) →
      (tag.strict = true → List.Chain' (fun a b => a ≠ b) (done ++ vs)) →
      (tag.uniq = true → ∀ x, x ∈ (mlookup st.seen name).getD [] ↔ x ∈ done) →
      (tag.uniq = false → mlookup st.lastSeen name = done.getLast?) →
      ∃ st1, readElems tag name low high sep vs.length st = .ok (vs, st1) ∧
        st1.input = rest ∧
        (∀ n2, n2 ≠ name → mlookup st1.seen n2 = mlookup st.seen n2) := by
  intro vs
  induction vs with
  | nil =>
    intro done st rest hin hb hrange hnd hinc hdec hstr hseen hlast
    refine ⟨st, ?_, ?_, fun n2 _ => rfl⟩
    · rfl
    · simpa [elemsBytes] using hin
  | cons v vs ih =>
    intro done st rest hin hb hrange hnd hinc hdec hstr hseen hlast
    obtain ⟨hvlo, hvhi⟩ := hrange v (by simp)
    have hv64lo : int64Min ≤ v := le_trans h64lo hvlo
    have hv64hi : v ≤ int64Max := le_trans hvhi h64hi
    have hrcheck : ¬ (v < low ∨ high < v) := by omega
    cases vs with
    | nil =>
      have hin2 : st.input = intRepr v ++ rest := by
        simpa [elemsBytes] using hin
      obtain ⟨st2, hck, hinp2, hseen2, hlast2, hoth2⟩ :=
        @checkNumber_step tag name low high v { st with input := rest } done []
          hrcheck hnd hinc hdec hstr hseen hlast
      refine ⟨st2, ?_, by rw [hinp2], hoth2⟩
      rw [show ([v] : List Int).length = 1 from rfl, readElems_one,
        readIntegerCmd_gen hin2 hb hv64lo hv64hi, hck]
      rfl
    | cons w ws =>
      have hin2 : st.input =
          intRepr v ++ (sepChar sep :: (elemsBytes (w :: ws) (sepChar sep) ++ rest)) := by
        rw [hin]
        rw [show elemsBytes (v :: w :: ws) (sepChar sep) =
          intRepr v ++ sepChar sep :: elemsBytes (w :: ws) (sepChar sep) from rfl]
        simp
      have hb2 : wsBoundary (sepChar sep :: (elemsBytes (w :: ws) (sepChar sep) ++ rest)) :=
        Or.inr ⟨_, _, rfl, isWS_sepChar sep⟩
      obtain ⟨st2, hck, hinp2, hseen2, hlast2, hoth2⟩ :=
        @checkNumber_step tag name low high v
          { st with input := sepChar sep :: (elemsBytes (w :: ws) (sepChar sep) ++ rest) }
          done (w :: ws) hrcheck hnd hinc hdec hstr hseen hlast
      have hsep : readSep sep st2 =
          .ok { st2 with input := elemsBytes (w :: ws) (sepChar sep) ++ rest } :=
        readSep_sepChar (by rw [hinp2])
      obtain ⟨st1, hrec, hinp1, hoth1⟩ := ih (done ++ [v])
        { st2 with input := elemsBytes (w :: ws) (sepChar sep) ++ rest } rest rfl hb
        (fun x hx => hrange x (by simp [hx]))
        (fun hu => by rw [← List.append_cons]; exact hnd hu)
        (fun hu => by rw [← List.append_cons]; exact hinc hu)
        (fun hu => by rw [← List.append_cons]; exact hdec hu)
        (fun hu => by rw [← List.append_cons]; exact hstr hu)
        (fun hu x => hseen2 hu x)
        (fun hu => hlast2 hu)
      refine ⟨st1, ?_, hinp1, fun n2 hn2 => (hoth1 n2 hn2).trans (hoth2 n2 hn2)⟩
      rw [show ((v :: w :: ws) : List Int).length = ws.length + 2 by simp,
        readElems_succ2, readIntegerCmd_gen hin2 hb2 hv64lo hv64hi, hck]
      show (Except.ok (v, st2) >>= _) = _
      rw [show ∀ (x : Int × RState) (f : Int × RState → Except Unit (List Int × RState)),
        (Except.ok x >>= f) = f x from fun x f => rfl]
      dsimp only
      rw [hsep]
      rw [show ∀ (x : RState) (f : RState → Except Unit (List Int × RState)),
        (Except.ok x >>= f) = f x from fun x f => rfl]
      rw [show ws.length + 1 = (w :: ws).length from by simp, hrec]
      rfl

/-- Reading back a whole generated vector (`read_numbers` in read mode):
reset, elements, final newline. -/
theorem readIntegersCmd_gen {tag : Tag} {name : String} {count : Nat}
    {low high : Int} {sep : Sep} {vs : List Int} {st : RState} {rest : List Char}
    (hin : st.input = joinVals vs (sepChar sep) ++ rest)
    (hlen : vs.length = count)
    (h64lo : int64Min ≤ low) (h64hi : high ≤ int64Max)
    (hrange : ∀ v ∈ vs, low ≤ v ∧ v ≤ high)
    (hnd : tag.uniq = true → vs.Nodup)
    (hinc : tag.incr = true → List.Chain' (· ≤ ·) vs)
    (hdec : tag.decr = true → List.Chain' (fun a b => b ≤ a) vs)
    (hstr : tag.strict = true → List.Chain' (fun a b => a ≠ b) vs) :
    ∃ st1, readIntegersCmd tag name count low high sep st = .ok (vs, st1) ∧
      st1.input = rest ∧
      (∀ n2, n2 ≠ name → mlookup st1.seen n2 = mlookup st.seen n2) := by
  have hin2 : (resetName name st).input =
      elemsBytes vs (sepChar sep) ++ ('\n' :: rest) := by
    show st.input = _
    rw [hin, joinVals_eq]
    simp
  obtain ⟨st1, helems, hinp1, hoth1⟩ := readElems_go tag name low high sep h64lo h64hi
    vs [] (resetName name st) ('\n' :: rest) hin2
    (Or.inr ⟨_, _, rfl, by decide⟩)
    hrange
    (fun hu => by simpa using hnd hu)
    (fun hu => by simpa using hinc hu)
    (fun hu => by simpa using hdec hu)
    (fun hu => by simpa using hstr hu)
    (fun _ x => by
      show x ∈ (mlookup (mremove st.seen name) name).getD [] ↔ x ∈ []
      rw [mlookup_mremove_self]
      simp)
    (fun _ => by
      show mlookup (mremove st.lastSeen name) name = ([] : List Int).getLast?
      rw [mlookup_mremove_self]
      rfl)
  refine ⟨{ st1 with input := rest }, ?_, rfl, ?_⟩
  · unfold readIntegersCmd
    rw [hlen] at helems
    rw [helems]
    rw [show ∀ (x : List Int × RState)
        (f : List Int × RState → Except Unit (List Int × RState)),
      (Except.ok x >>= f) = f x from fun x f => rfl]
    dsimp only
    rw [readNewline_cons hinp1]
    rfl
  · intro n2 hn2
    show mlookup st1.seen n2 = _
    rw [hoth1 n2 hn2]
    show mlookup (mremove st.seen name) n2 = _
    rw [mlookup_mremove_other _ _ _ hn2]

theorem noUniqueScalarOf_spec {n : String} :
    ∀ {cs : List Cmd}, noUniqueScalarOf n cs = true →
      ∀ c ∈ cs, ∀ n2 l2 h2 t2, c = Cmd.readInt n2 l2 h2 t2 → t2.uniq = true → n2 ≠ n := by
  intro cs
  induction cs with
  | nil => intro _ c hc; exact absurd hc (by simp)
  | cons c0 cs ih =>
    intro hns c hc n2 l2 h2 t2 hceq hu
    rcases List.mem_cons.mp hc with rfl | hcm
    · subst hceq
      rw [noUniqueScalarOf, Bool.and_eq_true] at hns
      have hx := hns.1
      rw [hu] at hx
      simp only [Bool.true_and] at hx
      simp at hx
      exact hx
    · cases c0 with
      | readInt a b c' d =>
        simp only [noUniqueScalarOf, Bool.and_eq_true] at hns
        exact ih hns.2 c hcm n2 l2 h2 t2 hceq hu
      | readInts a b c' d e f => exact ih (by simpa [noUniqueScalarOf] using hns) c hcm n2 l2 h2 t2 hceq hu
      | space => exact ih (by simpa [noUniqueScalarOf] using hns) c hcm n2 l2 h2 t2 hceq hu
      | newline => exact ih (by simpa [noUniqueScalarOf] using hns) c hcm n2 l2 h2 t2 hceq hu

theorem uniqueScalarBounds_spec {n : String} {l h : Int} :
    ∀ {cs : List Cmd}, uniqueScalarBounds n l h cs = true →
      ∀ c ∈ cs, ∀ l2 h2 t2, c = Cmd.readInt n l2 h2 t2 → t2.uniq = true →
        l2 = l ∧ h2 = h := by
  intro cs
  induction cs with
  | nil => intro _ c hc; exact absurd hc (by simp)
  | cons c0 cs ih =>
    intro hns c hc l2 h2 t2 hceq hu
    rcases List.mem_cons.mp hc with rfl | hcm
    · subst hceq
      rw [uniqueScalarBounds, Bool.and_eq_true] at hns
      have hx := hns.1
      rw [hu] at hx
      simp only [Bool.true_and, decide_eq_true_eq] at hx
      simp at hx
      exact hx
    · cases c0 with
      | readInt a b c' d =>
        simp only [uniqueScalarBounds, Bool.and_eq_true] at hns
        exact ih hns.2 c hcm l2 h2 t2 hceq hu
      | readInts a b c' d e f => exact ih (by simpa [uniqueScalarBounds] using hns) c hcm l2 h2 t2 hceq hu
      | space => exact ih (by simpa [uniqueScalarBounds] using hns) c hcm l2 h2 t2 hceq hu
      | newline => exact ih (by simpa [uniqueScalarBounds] using hns) c hcm l2 h2 t2 hceq hu

/-! ## The round-trip induction -/

theorem genList_cons_shape {fuel : Nat} {c : Cmd} {cs : List Cmd} {g : GState}
    {out : List Char} {g1 : GState}
    (h : genList fuel (c :: cs) g = some (out, g1)) :
    ∃ o1 gmid o2, genCmd fuel c g = some (o1, gmid) ∧
      genList fuel cs gmid = some (o2, g1) ∧ out = o1 ++ o2 := by
  rw [genList] at h
  split at h
  · exact absurd h (by simp)
  · rename_i o1 gmid hc
    split at h
    · exact absurd h (by simp)
    · rename_i o2 g2 hcs
      rw [Option.some.injEq, Prod.mk.injEq] at h
      obtain ⟨hout, hg⟩ := h
      exact ⟨o1, gmid, o2, hc, by rw [hg] at hcs; exact hcs, hout.symm⟩

theorem genList_nil_shape {fuel : Nat} {g : GState} {out : List Char} {g1 : GState}
    (h : genList fuel [] g = some (out, g1)) : out = [] ∧ g1 = g := by
  rw [genList, Option.some.injEq, Prod.mk.injEq] at h
  exact ⟨h.1.symm, h.2.symm⟩

/-- After a scalar token, the bytes generated by the rest of the program
start with a separator (or the program ends), so token extraction stops. -/
theorem sepNext_boundary {fuel : Nat} {cs : List Cmd} {gmid : GState}
    {o2 : List Char} {g1 : GState} {rest : List Char}
    (hsep : sepNext cs = true)
    (hg2 : genList fuel cs gmid = some (o2, g1))
    (hb : wsBoundary rest) : wsBoundary (o2 ++ rest) := by
  cases cs with
  | nil =>
    obtain ⟨rfl, -⟩ := genList_nil_shape hg2
    exact hb
  | cons c2 cs2 =>
    obtain ⟨o1, gmid2, o3, hc, hrest, rfl⟩ := genList_cons_shape hg2
    cases c2 with
    | readInt a b c d => exact absurd hsep (by simp [sepNext])
    | readInts a b c d e f => exact absurd hsep (by simp [sepNext])
    | space =>
      rw [show genCmd fuel Cmd.space gmid = some ([' '], gmid) from rfl,
        Option.some.injEq, Prod.mk.injEq] at hc
      rw [← hc.1]
      exact Or.inr ⟨_, _, rfl, by decide⟩
    | newline =>
      rw [show genCmd fuel Cmd.newline gmid = some (['\n'], gmid) from rfl,
        Option.some.injEq, Prod.mk.injEq] at hc
      rw [← hc.1]
      exact Or.inr ⟨_, _, rfl, by decide⟩

theorem roundInv_tail {c : Cmd} {cs : List Cmd} {u : SMap UniqueIntState} {st : RState}
    (h : roundInv (c :: cs) u st) : roundInv cs u st :=
  fun c2 hc2 => h c2 (List.mem_cons_of_mem c hc2)

theorem roundInv_congr {cmds : List Cmd} {u u2 : SMap UniqueIntState} {st st2 : RState}
    (h : roundInv cmds u st)
    (hu : ∀ n, mlookup u2 n = mlookup u n)
    (hs : ∀ n, mlookup st2.seen n = mlookup st.seen n) :
    roundInv cmds u2 st2 := by
  intro c hc n l hh t hceq ht
  rw [hu n, hs n]
  exact h c hc n l hh t hceq ht

theorem readCmd_readInt_ok {t : Tag} {n : String} {l h : Int} {st st2 : RState}
    {v : Int} {rest : List Char}
    (hin : st.input = intRepr v ++ rest) (hb : wsBoundary rest)
    (h64lo : int64Min ≤ v) (h64hi : v ≤ int64Max)
    (hck : checkNumber t n l h v { st with input := rest } = .ok st2) :
    readCmd (.readInt n l h t) st = .ok st2 := by
  show (readIntegerCmd t n l h st).map (fun p => p.2) = _
  rw [readIntegerCmd_gen hin hb h64lo h64hi, hck]
  rfl

theorem readList_cons_ok {c : Cmd} {cs : List Cmd} {st stmid : RState}
    (h : readCmd c st = .ok stmid) :
    readList (c :: cs) st = readList cs stmid := by
  rw [readList, h]
  rfl

/-- All `gen_numbers` tags at once: length, range, and the per-tag shape
facts needed for the read-back. -/
theorem genNumbersInt_spec {fuel count : Nat} {low high : Int} {t : Tag}
    {r : Rng} {vs : List Int} {r1 : Rng}
    (hlh : low ≤ high)
    (hcnt : t.uniq = true ∨ t.strict = true → (count : Int) ≤ high - low + 1)
    (h : genNumbersInt fuel t count low high r = some (vs, r1)) :
    vs.length = count ∧ (∀ v ∈ vs, low ≤ v ∧ v ≤ high) ∧
      (t.uniq = true → vs.Nodup) ∧
      (t.incr = true → List.Chain' (· ≤ ·) vs) ∧
      (t.decr = true → List.Chain' (fun a b => b ≤ a) vs) ∧
      (t.strict = true → List.Chain' (fun a b => a ≠ b) vs) := by
  cases t with
  | arbitrary =>
    obtain ⟨h1, h2⟩ := genNumbersInt_arb_spec hlh h
    exact ⟨h1, h2, fun hx => absurd hx (by decide), fun hx => absurd hx (by decide),
      fun hx => absurd hx (by decide), fun hx => absurd hx (by decide)⟩
  | unique =>
    obtain ⟨h1, h2, h3⟩ := genNumbersInt_unique_spec hlh (hcnt (Or.inl rfl)) h
    exact ⟨h1, h3, fun _ => h2, fun hx => absurd hx (by decide),
      fun hx => absurd hx (by decide), fun hx => absurd hx (by decide)⟩
  | increasing =>
    obtain ⟨h1, h2, h3⟩ := genNumbersInt_inc_spec hlh h
    exact ⟨h1, h3, fun hx => absurd hx (by decide), fun _ => h2,
      fun hx => absurd hx (by decide), fun hx => absurd hx (by decide)⟩
  | decreasing =>
    rw [genNumbersInt_dec_eq, Option.map_eq_some'] at h
    obtain ⟨⟨vs0, r0⟩, hinc0, heq⟩ := h
    rw [Prod.mk.injEq] at heq
    obtain ⟨hvs, -⟩ := heq
    obtain ⟨h1, h2, h3⟩ := genNumbersInt_inc_spec hlh hinc0
    subst hvs
    refine ⟨by rw [List.length_reverse, h1],
      fun v hv => h3 v (List.mem_reverse.mp hv),
      fun hx => absurd hx (by decide), fun hx => absurd hx (by decide),
      fun _ => ?_, fun hx => absurd hx (by decide)⟩
    rw [List.chain'_reverse]
    exact h2
  | strictlyIncreasing =>
    obtain ⟨h1, h2, h3⟩ := genNumbersInt_strictInc_spec (hcnt (Or.inr rfl)) h
    refine ⟨h1, h3, fun hx => absurd hx (by decide), fun _ => ?_,
      fun hx => absurd hx (by decide), fun _ => ?_⟩
    · refine h2.imp ?_
      intro a b hab
      show a ≤ b
      omega
    · refine h2.imp ?_
      intro a b hab
      show a ≠ b
      omega
  | strictlyDecreasing =>
    rw [genNumbersInt_strictDec_eq, Option.map_eq_some'] at h
    obtain ⟨⟨vs0, r0⟩, hinc0, heq⟩ := h
    rw [Prod.mk.injEq] at heq
    obtain ⟨hvs, -⟩ := heq
    obtain ⟨h1, h2, h3⟩ := genNumbersInt_strictInc_spec (hcnt (Or.inr rfl)) hinc0
    subst hvs
    refine ⟨by rw [List.length_reverse, h1],
      fun v hv => h3 v (List.mem_reverse.mp hv),
      fun hx => absurd hx (by decide), fun hx => absurd hx (by decide),
      fun _ => ?_, fun _ => ?_⟩
    · rw [List.chain'_reverse]
      refine h2.imp ?_
      intro a b hab
      show a ≤ b
      omega
    · rw [List.chain'_reverse]
      refine h2.imp ?_
      intro a b hab
      show b ≠ a
      omega

/-- Generated bytes read back: induction over the caller program.  Under
the well-formedness side conditions, a successful generator run produces
bytes that the read-mode validator consumes completely and accepts. -/
theorem roundtrip_go (fuel : Nat) :
    ∀ (cmds : List Cmd) (g : GState) (out : List Char) (g1 : GState)
      (st : RState) (rest : List Char),
      seqWF cmds = true → vecNameRule cmds = true → uniqueBoundsAgree cmds = true →
      genList fuel cmds g = some (out, g1) →
      st.input = out ++ rest → wsBoundary rest →
      roundInv cmds g.uniqueSeen st →
      ∃ st1, readList cmds st = .ok st1 ∧ st1.input = rest := by
  intro cmds
  induction cmds with
  | nil =>
    intro g out g1 st rest _ _ _ hgen hin _ _
    obtain ⟨rfl, -⟩ := genList_nil_shape hgen
    exact ⟨st, rfl, by rw [hin]; rfl⟩
  | cons c cs ih =>
    intro g out g1 st rest hseq hvec hub hgen hin hb hri
    obtain ⟨o1, gmid, o2, hc, hcs, rfl⟩ := genList_cons_shape hgen
    have hseq0 : ((cmdWF c && (if isTokenCmd c then sepNext cs else true)) &&
        seqWF cs) = true := hseq
    rw [Bool.and_eq_true, Bool.and_eq_true] at hseq0
    obtain ⟨⟨hwf, hsepn⟩, hseq2⟩ := hseq0
    cases c with
    | space =>
      rw [show genCmd fuel Cmd.space g = some ([' '], g) from rfl,
        Option.some.injEq, Prod.mk.injEq] at hc
      obtain ⟨ho1, hgm⟩ := hc
      subst hgm
      have hinsp : st.input = sepChar Sep.space :: (o2 ++ rest) := by
        rw [hin, ← ho1]
        rfl
      have hrd : readCmd Cmd.space st = .ok { st with input := o2 ++ rest } :=
        readSep_sepChar hinsp
      rw [readList_cons_ok hrd]
      exact ih _ o2 g1 { st with input := o2 ++ rest } rest hseq2 hvec hub
        hcs rfl hb (roundInv_congr (roundInv_tail hri) (fun _ => rfl) (fun _ => rfl))
    | newline =>
      rw [show genCmd fuel Cmd.newline g = some (['\n'], g) from rfl,
        Option.some.injEq, Prod.mk.injEq] at hc
      obtain ⟨ho1, hgm⟩ := hc
      subst hgm
      have hinsp : st.input = sepChar Sep.newline :: (o2 ++ rest) := by
        rw [hin, ← ho1]
        rfl
      have hrd : readCmd Cmd.newline st = .ok { st with input := o2 ++ rest } :=
        readSep_sepChar hinsp
      rw [readList_cons_ok hrd]
      exact ih _ o2 g1 { st with input := o2 ++ rest } rest hseq2 hvec hub
        hcs rfl hb (roundInv_congr (roundInv_tail hri) (fun _ => rfl) (fun _ => rfl))
    | readInt n l h t =>
      have hwf0 : ((((decide (n ≠ "") && decide (int64Min ≤ l)) && decide (l ≤ h)) &&
          decide (h ≤ int64Max)) && scalarTagOK t) = true := hwf
      rw [Bool.and_eq_true, Bool.and_eq_true, Bool.and_eq_true, Bool.and_eq_true] at hwf0
      obtain ⟨⟨⟨⟨-, h64l⟩, hlh⟩, h64h⟩, htag⟩ := hwf0
      rw [decide_eq_true_eq] at h64l hlh h64h
      have hsep : sepNext cs = true := hsepn
      have hb2 : wsBoundary (o2 ++ rest) := sepNext_boundary hsep hcs hb
      cases t with
      | increasing => exact absurd htag (by decide)
      | decreasing => exact absurd htag (by decide)
      | strictlyIncreasing => exact absurd htag (by decide)
      | strictlyDecreasing => exact absurd htag (by decide)
      | arbitrary =>
        rw [show genCmd fuel (Cmd.readInt n l h .arbitrary) g =
          (match uniformInt fuel l h g.rng with
           | none => none
           | some (v, r1) => some (intRepr v, ⟨r1, g.uniqueSeen⟩)) from rfl] at hc
        split at hc
        · exact absurd hc (by simp)
        · rename_i v r1 huni
          rw [Option.some.injEq, Prod.mk.injEq] at hc
          obtain ⟨ho1, hgm⟩ := hc
          obtain ⟨hvl, hvh⟩ := uniformInt_bounds hlh huni
          have hck : checkNumber .arbitrary n l h v { st with input := o2 ++ rest } =
              .ok { st with
                input := o2 ++ rest,
                lastSeen := mupdate st.lastSeen n v,
                bounds := mupdate st.bounds n
                  (logConstraint (mlookup st.bounds n) l h v) } :=
            checkNumber_nonunique_ok rfl (by omega)
              (fun last _ => ⟨fun hx => absurd hx (by decide),
                fun hx => absurd hx (by decide), fun hx => absurd hx (by decide)⟩)
          have hrd : readCmd (Cmd.readInt n l h .arbitrary) st =
              .ok { st with
                input := o2 ++ rest,
                lastSeen := mupdate st.lastSeen n v,
                bounds := mupdate st.bounds n
                  (logConstraint (mlookup st.bounds n) l h v) } :=
            readCmd_readInt_ok (by rw [hin, ← ho1, List.append_assoc]) hb2
              (le_trans h64l hvl) (le_trans hvh h64h) hck
          rw [readList_cons_ok hrd]
          refine ih gmid o2 g1 _ rest hseq2 hvec hub hcs rfl hb ?_
          have hgm2 : gmid.uniqueSeen = g.uniqueSeen := by rw [← hgm]
          refine roundInv_congr (roundInv_tail hri) (fun n2 => ?_) (fun _ => rfl)
          rw [hgm2]
      | unique =>
        obtain ⟨hinv0, hiff0⟩ := hri (Cmd.readInt n l h .unique)
          (List.mem_cons_self _ _) n l h .unique rfl rfl
        rw [show genCmd fuel (Cmd.readInt n l h .unique) g =
          (match genUniqueScalar fuel l h
              ((mlookup g.uniqueSeen n).getD ⟨[], [], false⟩) g.rng with
           | none => none
           | some (v, u1, r1) =>
              some (intRepr v, ⟨r1, mupdate g.uniqueSeen n u1⟩)) from rfl] at hc
        split at hc
        · exact absurd hc (by simp)
        · rename_i v u1 r1 hgu
          rw [Option.some.injEq, Prod.mk.injEq] at hc
          obtain ⟨ho1, hgm⟩ := hc
          obtain ⟨⟨hvl, hvh⟩, hfresh, hvals1, hinv1⟩ :=
            genUniqueScalar_spec hlh hinv0 hgu
          have hfresh2 : ¬ v ∈ (mlookup st.seen n).getD [] :=
            fun hx => hfresh ((hiff0 v).mp hx)
          have hck : checkNumber .unique n l h v { st with input := o2 ++ rest } =
              .ok { st with
                input := o2 ++ rest,
                seen := mupdate st.seen n (v :: (mlookup st.seen n).getD []),
                bounds := mupdate st.bounds n
                  (logConstraint (mlookup st.bounds n) l h v) } :=
            checkNumber_unique_ok (by omega) hfresh2
          have hrd : readCmd (Cmd.readInt n l h .unique) st =
              .ok { st with
                input := o2 ++ rest,
                seen := mupdate st.seen n (v :: (mlookup st.seen n).getD []),
                bounds := mupdate st.bounds n
                  (logConstraint (mlookup st.bounds n) l h v) } :=
            readCmd_readInt_ok (by rw [hin, ← ho1, List.append_assoc]) hb2
              (le_trans h64l hvl) (le_trans hvh h64h) hck
          rw [readList_cons_ok hrd]
          have hub0 : (uniqueScalarBounds n l h cs && uniqueBoundsAgree cs) = true := hub
          rw [Bool.and_eq_true] at hub0
          refine ih gmid o2 g1 _ rest hseq2 hvec hub0.2 hcs rfl hb ?_
          have hgm2 : gmid.uniqueSeen = mupdate g.uniqueSeen n u1 := by rw [← hgm]
          intro c2 hc2 n2 l2 h2 t2 hceq ht2
          rw [hgm2]
          by_cases hn2 : n2 = n
          · subst hn2
            obtain ⟨hl2, hh2⟩ := uniqueScalarBounds_spec hub0.1 c2 hc2 l2 h2 t2 hceq ht2
            subst hl2
            subst hh2
            rw [mlookup_mupdate_self]
            constructor
            · exact hinv1
            · intro x
              have hsm : mlookup
                  ({ st with
                    input := o2 ++ rest,
                    seen := mupdate st.seen n2 (v :: (mlookup st.seen n2).getD []),
                    bounds := mupdate st.bounds n2
                      (logConstraint (mlookup st.bounds n2) l2 h2 v) } : RState).seen n2 =
                  some (v :: (mlookup st.seen n2).getD []) :=
                mlookup_mupdate_self _ _ _
              rw [hsm]
              show x ∈ v :: (mlookup st.seen n2).getD [] ↔ uVals l2 h2 u1 x
              rw [List.mem_cons, hvals1 x]
              constructor
              · rintro (rfl | hx)
                · exact Or.inr rfl
                · exact Or.inl ((hiff0 x).mp hx)
              · rintro (hx | rfl)
                · exact Or.inr ((hiff0 x).mpr hx)
                · exact Or.inl rfl
          · have hbase := hri c2 (List.mem_cons_of_mem _ hc2) n2 l2 h2 t2 hceq ht2
            rw [mlookup_mupdate_other _ _ _ _ hn2]
            have hsm : mlookup
                ({ st with
                  input := o2 ++ rest,
                  seen := mupdate st.seen n (v :: (mlookup st.seen n).getD []),
                  bounds := mupdate st.bounds n
                    (logConstraint (mlookup st.bounds n) l h v) } : RState).seen n2 =
                mlookup st.seen n2 :=
              mlookup_mupdate_other _ _ _ _ hn2
            rw [hsm]
            exact hbase
    | readInts n cnt l h t sp =>
      have hwf0 : (((decide (int64Min ≤ l) && decide (l ≤ h)) && decide (h ≤ int64Max)) &&
          (if t.uniq || t.strict then decide ((cnt : Int) ≤ h - l + 1) else true)) = true := hwf
      rw [Bool.and_eq_true, Bool.and_eq_true, Bool.and_eq_true] at hwf0
      obtain ⟨⟨⟨h64l, hlh⟩, h64h⟩, hcbase⟩ := hwf0
      rw [decide_eq_true_eq] at h64l hlh h64h
      have hcnt2 : t.uniq = true ∨ t.strict = true → (cnt : Int) ≤ h - l + 1 := by
        intro hts
        have hor : (t.uniq || t.strict) = true := by
          rcases hts with hx | hx
          · rw [hx, Bool.true_or]
          · rw [hx, Bool.or_true]
        rw [if_pos hor, decide_eq_true_eq] at hcbase
        exact hcbase
      rw [show genCmd fuel (Cmd.readInts n cnt l h t sp) g =
        (match genNumbersInt fuel t cnt l h g.rng with
         | none => none
         | some (vs, r1) => some (joinVals vs (sepChar sp), ⟨r1, g.uniqueSeen⟩)) from rfl] at hc
      split at hc
      · exact absurd hc (by simp)
      · rename_i vs r1 hgn
        rw [Option.some.injEq, Prod.mk.injEq] at hc
        obtain ⟨ho1, hgm⟩ := hc
        obtain ⟨hlen, hrange, hnd, hincr, hdecr, hstrict⟩ :=
          genNumbersInt_spec hlh hcnt2 hgn
        have hin2 : st.input = joinVals vs (sepChar sp) ++ (o2 ++ rest) := by
          rw [hin, ← ho1, List.append_assoc]
        obtain ⟨st1, hread, hinp1, hoth⟩ := readIntegersCmd_gen hin2 hlen h64l h64h
          hrange hnd hincr hdecr hstrict
        have hrd : readCmd (Cmd.readInts n cnt l h t sp) st = .ok st1 := by
          show (readIntegersCmd t n cnt l h sp st).map (fun p => p.2) = _
          rw [hread]
          rfl
        rw [readList_cons_ok hrd]
        have hvec0 : (noUniqueScalarOf n cs && vecNameRule cs) = true := hvec
        rw [Bool.and_eq_true] at hvec0
        refine ih gmid o2 g1 st1 rest hseq2 hvec0.2 hub hcs hinp1 hb ?_
        have hgm2 : gmid.uniqueSeen = g.uniqueSeen := by rw [← hgm]
        intro c2 hc2 n2 l2 h2 t2 hceq ht2
        have hn2 : n2 ≠ n := noUniqueScalarOf_spec hvec0.1 c2 hc2 n2 l2 h2 t2 hceq ht2
        have hbase := hri c2 (List.mem_cons_of_mem _ hc2) n2 l2 h2 t2 hceq ht2
        rw [hgm2, hoth n2 hn2]
        exact hbase

/-- `Nat.digits` is not definitionally reducible, so concrete prints are
evaluated through this equation. -/
theorem natRepr_one : natRepr 1 = ['1'] := by
  rw [natRepr, if_neg (by decide),
    Nat.digits_def' (by norm_num : (1 : Nat) < 10) (by norm_num : (0 : Nat) < 1)]
  norm_num
  rfl

theorem intRepr_one : intRepr 1 = ['1'] := by
  rw [intRepr, if_neg (by decide)]
  exact natRepr_one

/-! ## Claim C1: the generator / reader round trip -/

/-- C1 counterexample: the round trip is not unconditional.  The caller
program `read_integer("a",1,10); read_integer("b",1,10)` with no separator
call between the reads generates the bytes `"11"` (two tokens written
back to back), and reading those bytes back with the same program rejects
with exit code 43: the reader takes the whole run `"11"` as one token and
`11` is out of range (and the second read would hit end of input). -/
theorem C1_roundtrip_counterexample :
    (genList 4 [Cmd.readInt "a" 1 10 .arbitrary, Cmd.readInt "b" 1 10 .arbitrary]
        ⟨⟨fun _ => 0, 0⟩, []⟩).map (fun p => p.1) = some ['1', '1'] ∧
    readerVerdict [Cmd.readInt "a" 1 10 .arbitrary, Cmd.readInt "b" 1 10 .arbitrary]
      ['1', '1'] = retWA := by
  constructor
  · rw [show (genList 4 [Cmd.readInt "a" 1 10 .arbitrary, Cmd.readInt "b" 1 10 .arbitrary]
        ⟨⟨fun _ => 0, 0⟩, []⟩).map (fun p => p.1) =
      some (intRepr 1 ++ (intRepr 1 ++ [])) from rfl, intRepr_one]
    rfl
  · decide

/-- C1 (amended): the round trip holds for well-formed caller programs
over the integer fragment: every scalar read is followed by a separator
call (or ends the program), ranges fit in `long long` with `low ≤ high`,
Unique/strict vector counts fit in their ranges, all Unique scalar reads
of one name use one range, and no Unique scalar read of a name follows a
vector read of the same name.  For such a program, any output the
generator produces is read back in full and the reader exits with AC
(42). -/
theorem C1_roundtrip_wf (fuel : Nat) (P : List Cmd) (g : GState) (out : List Char)
    (hwf : seqWF P = true) (hvn : vecNameRule P = true)
    (hba : uniqueBoundsAgree P = true) (hus : g.uniqueSeen = [])
    (hgen : (genList fuel P g).map (fun p => p.1) = some out) :
    readerVerdict P out = retAC := by
  rw [Option.map_eq_some'] at hgen
  obtain ⟨⟨out0, g1⟩, hg, hout⟩ := hgen
  dsimp only at hout
  subst hout
  have hri : roundInv P g.uniqueSeen ⟨out0, [], [], []⟩ := by
    intro c hc n l h t hceq ht
    rw [hus]
    constructor
    · exact uInv_empty l h
    · intro x
      constructor
      · intro hx
        exact absurd hx (List.not_mem_nil x)
      · intro hx
        exact ((uVals_empty l h x).mp hx).elim
  obtain ⟨st1, hread, hinp⟩ := roundtrip_go fuel P g out0 g1 ⟨out0, [], [], []⟩ []
    hwf hvn hba hg (by rw [List.append_nil]) (Or.inl rfl) hri
  unfold readerVerdict runReadValidator
  rw [hread]
  dsimp only
  rw [hinp]
  rfl

theorem c1GenEval :
    (genList 4 [Cmd.readInt "n" 1 10 .arbitrary, Cmd.newline]
        ⟨⟨fun _ => 0, 0⟩, []⟩).map (fun p => p.1) =
      some (intRepr 1 ++ (['\n'] ++ [])) := rfl

/-- C1 witness: the program `read_integer("n",1,10); newline()` with the
all-zeros engine generates `"1\n"`, and reading that back yields AC. -/
theorem C1_roundtrip_wf_witness :
    seqWF [Cmd.readInt "n" 1 10 .arbitrary, Cmd.newline] = true ∧
    (genList 4 [Cmd.readInt "n" 1 10 .arbitrary, Cmd.newline]
        ⟨⟨fun _ => 0, 0⟩, []⟩).map (fun p => p.1) = some ['1', '\n'] ∧
    readerVerdict [Cmd.readInt "n" 1 10 .arbitrary, Cmd.newline] ['1', '\n'] = retAC :=
  ⟨by decide, by rw [c1GenEval, intRepr_one]; rfl,
    C1_roundtrip_wf 4 [Cmd.readInt "n" 1 10 .arbitrary, Cmd.newline]
    ⟨⟨fun _ => 0, 0⟩, []⟩ ['1', '\n'] (by decide) (by decide) (by decide) rfl
    (by rw [c1GenEval, intRepr_one]; rfl)⟩

/-! ## Claim C2: the strict integer grammar -/

/-- C2: `read_integer` accepts a token exactly when it matches
`-?[1-9][0-9]*` or is exactly `"0"` and its value fits in a 64-bit signed
integer; the accepted value is the token's decimal value; a grammatical
token whose magnitude does not fit terminates with the out-of-range parse
error (every `.error` outcome is `WA(...)`, which exits with 43). -/
theorem C2_integer_grammar (s : List Char) :
    ((∃ v, readIntegerTok s = .ok v) ↔
      (intGrammar s = true ∧ int64Min ≤ intVal s ∧ intVal s ≤ int64Max)) ∧
    (∀ v, readIntegerTok s = .ok v → v = intVal s) ∧
    (intGrammar s = true → (intVal s < int64Min ∨ int64Max < intVal s) →
      readIntegerTok s = .error (.notProcessed .resultOutOfRange)) := by
  refine ⟨⟨?_, ?_⟩, ?_, ?_⟩
  · rintro ⟨v, hv⟩
    obtain ⟨h1, h2, h3, h4⟩ := grammar_of_readIntegerTok_ok hv
    refine ⟨h1, ?_, ?_⟩ <;> rw [h2] <;> assumption
  · rintro ⟨hg, hlo, hhi⟩
    exact ⟨intVal s, by rw [readIntegerTok_of_grammar s hg, if_neg (by omega)]⟩
  · intro v hv
    exact ((grammar_of_readIntegerTok_ok hv).2.1).symm
  · intro hg hrange
    rw [readIntegerTok_of_grammar s hg, if_pos hrange]

/-! ## Claim C3: the bounds coverage invariant -/

/-- C3 counterexample: when the declared bounds of one name vary between
calls, `HAS_MIN` can be set while `MIN` differs from the recorded `LOW`:
logging `v = 5` first against `[0,10]` and then against `[5,10]` leaves
`min = 5`, `low = 0`, `has_min = true`. -/
theorem C3_bounds_counterexample :
    logFold [(0, 10, 5), (5, 10, 5)] =
      some ⟨5, 5, 0, 10, true, false⟩ ∧
    (5 : Int) ≠ 0 := by
  exact ⟨by decide, by decide⟩

/-- C3 (amended): for one name whose successful reads all declare the same
`low`/`high`, the recorded bounds satisfy the coverage invariant:
`LOW`/`HIGH` are the declared bounds, `LOW ≤ MIN ≤ MAX ≤ HIGH`, and
`HAS_MIN`/`HAS_MAX` imply the observed extreme touches the bound. -/
theorem C3_bounds_coverage (low high : Int) (events : List (Int × Int × Int))
    (b : BoundsRec)
    (hconst : ∀ e ∈ events, e.1 = low ∧ e.2.1 = high)
    (hrange : ∀ e ∈ events, low ≤ e.2.2 ∧ e.2.2 ≤ high)
    (hb : logFold events = some b) :
    b.low = low ∧ b.high = high ∧ low ≤ b.min ∧ b.min ≤ b.max ∧ b.max ≤ high ∧
      (b.has_min = true → b.min = b.low) ∧ (b.has_max = true → b.max = b.high) := by
  obtain ⟨h1, h2, h3, h4, h5, h6, h7⟩ := logFold_inv low high events hconst hrange b hb
  exact ⟨h1, h2, h3, h4, h5, fun hx => by rw [h6 hx, h1], fun hx => by rw [h7 hx, h2]⟩

/-- C3 witness: two reads of `3` and `7` against the fixed range `[0,10]`. -/
theorem C3_bounds_coverage_witness :
    (∀ e ∈ [((0 : Int), (10 : Int), (3 : Int)), (0, 10, 7)], e.1 = 0 ∧ e.2.1 = 10) ∧
    (∀ e ∈ [((0 : Int), (10 : Int), (3 : Int)), (0, 10, 7)], 0 ≤ e.2.2 ∧ e.2.2 ≤ 10) ∧
    logFold [((0 : Int), (10 : Int), (3 : Int)), (0, 10, 7)] =
      some ⟨3, 7, 0, 10, false, false⟩ ∧
    ((⟨3, 7, 0, 10, false, false⟩ : BoundsRec).low = 0 ∧
      (⟨3, 7, 0, 10, false, false⟩ : BoundsRec).high = 10 ∧
      (0 : Int) ≤ (⟨3, 7, 0, 10, false, false⟩ : BoundsRec).min ∧
      (⟨3, 7, 0, 10, false, false⟩ : BoundsRec).min ≤
        (⟨3, 7, 0, 10, false, false⟩ : BoundsRec).max ∧
      (⟨3, 7, 0, 10, false, false⟩ : BoundsRec).max ≤ 10 ∧
      ((⟨3, 7, 0, 10, false, false⟩ : BoundsRec).has_min = true →
        (⟨3, 7, 0, 10, false, false⟩ : BoundsRec).min =
          (⟨3, 7, 0, 10, false, false⟩ : BoundsRec).low) ∧
      ((⟨3, 7, 0, 10, false, false⟩ : BoundsRec).has_max = true →
        (⟨3, 7, 0, 10, false, false⟩ : BoundsRec).max =
          (⟨3, 7, 0, 10, false, false⟩ : BoundsRec).high)) :=
  ⟨by decide, by decide, by decide,
    C3_bounds_coverage 0 10 [((0 : Int), (10 : Int), (3 : Int)), (0, 10, 7)]
      ⟨3, 7, 0, 10, false, false⟩ (by decide) (by decide) (by decide)⟩

/-! ## Claim C4: lifecycle and exit codes -/

/-- C4 counterexample: in generator mode the destructor's `AC()` returns
instead of exiting, so "no other shutdown path exists" fails: the scope
exit completes with a plain return, not `exit(42)`. -/
theorem C4_lifecycle_counterexample :
    (destructorGen true).2 = Outcome.returned ∧
    (destructorGen true).2 ≠ Outcome.exited retAC ∧
    (destructorGen true).1 = [DtorAction.flushedOutput, DtorAction.wroteConstraints] := by
  exact ⟨rfl, by decide, rfl⟩

theorem runReadValidator_err {P : List Cmd} {input : List Char} {hasPath : Bool}
    {e : Unit} (h : readList P ⟨input, [], [], []⟩ = .error e) :
    runReadValidator P input hasPath = ([], .exited retWA) := by
  unfold runReadValidator
  rw [h]

theorem runReadValidator_ok {P : List Cmd} {input : List Char} {hasPath : Bool}
    {st : RState} (h : readList P ⟨input, [], [], []⟩ = .ok st) :
    runReadValidator P input hasPath = destructorRead (decide (st.input = [])) hasPath := by
  unfold runReadValidator
  rw [h]

/-- C4 (amended): in read mode the scope exit checks end-of-stream first;
on success it writes the bounds log (when a path is configured) and exits
42, and on any failure — a failing check during the run or remaining
input at `eof()` — the process exits 43 without writing the log. -/
theorem C4_lifecycle (P : List Cmd) (input : List Char) (hasPath : Bool) :
    ((runReadValidator P input hasPath).2 = Outcome.exited retAC ∧
      (runReadValidator P input hasPath).1 =
        DtorAction.eofChecked ::
          (if hasPath then [DtorAction.wroteConstraints] else [])) ∨
    ((runReadValidator P input hasPath).2 = Outcome.exited retWA ∧
      ¬ DtorAction.wroteConstraints ∈ (runReadValidator P input hasPath).1) := by
  cases hres : readList P ⟨input, [], [], []⟩ with
  | error e =>
    right
    rw [runReadValidator_err hres]
    exact ⟨rfl, by decide⟩
  | ok st =>
    rw [runReadValidator_ok hres]
    by_cases hemp : st.input = []
    · left
      rw [decide_eq_true hemp]
      exact ⟨rfl, rfl⟩
    · right
      rw [decide_eq_false hemp]
      refine ⟨rfl, ?_⟩
      show DtorAction.wroteConstraints ∉ [DtorAction.eofChecked]
      decide

/-! ## Claim C5: strict monotone generation -/

/-- C5: generating `count` StrictlyIncreasing integers in `[low, high]`
with `count ≤ high - low + 1` yields a vector of the right length in
which consecutive values differ by at least one, all values lie in
`[low, high]`, and the StrictlyDecreasing variant returns exactly the
reversed vector with the same engine state. -/
theorem C5_strict_monotone (fuel count : Nat) (low high : Int) (r : Rng)
    (vs : List Int) (r1 : Rng)
    (hcnt : (count : Int) ≤ high - low + 1)
    (h : genNumbersInt fuel .strictlyIncreasing count low high r = some (vs, r1)) :
    vs.length = count ∧ List.Chain' (fun a b => a + 1 ≤ b) vs ∧
      (∀ v ∈ vs, low ≤ v ∧ v ≤ high) ∧
      genNumbersInt fuel .strictlyDecreasing count low high r =
        some (vs.reverse, r1) := by
  obtain ⟨h1, h2, h3⟩ := genNumbersInt_strictInc_spec hcnt h
  refine ⟨h1, h2, h3, ?_⟩
  rw [genNumbersInt_strictDec_eq, h]
  rfl

/-- C5 witness: count 3 over `[1,10]` with the all-zeros engine generates
`[1,2,3]`, reversed `[3,2,1]`. -/
theorem C5_strict_monotone_witness :
    ((3 : Nat) : Int) ≤ 10 - 1 + 1 ∧
    genNumbersInt 8 .strictlyIncreasing 3 1 10 ⟨fun _ => 0, 0⟩ =
      some ([1, 2, 3], ⟨fun _ => 0, 3⟩) ∧
    ([1, 2, 3] : List Int).length = 3 ∧
    List.Chain' (fun a b => a + 1 ≤ b) ([1, 2, 3] : List Int) ∧
    (∀ v ∈ ([1, 2, 3] : List Int), 1 ≤ v ∧ v ≤ 10) ∧
    genNumbersInt 8 .strictlyDecreasing 3 1 10 ⟨fun _ => 0, 0⟩ =
      some (([1, 2, 3] : List Int).reverse, ⟨fun _ => 0, 3⟩) :=
  ⟨by decide, rfl,
    C5_strict_monotone 8 3 1 10 ⟨fun _ => 0, 0⟩ [1, 2, 3] ⟨fun _ => 0, 3⟩ (by decide) rfl⟩

/-! ## Claim C6: uniqueness of reads and generation -/

theorem checkNumber_range_fail {tag : Tag} {name : String} {low high v : Int}
    {st : RState} (hr : v < low ∨ high < v) :
    checkNumber tag name low high v st = .error () := by
  unfold checkNumber
  rw [if_pos hr]

theorem checkNumber_unique_ok_inv {name : String} {low high v : Int} {st st1 : RState}
    (h : checkNumber .unique name low high v st = .ok st1) :
    ¬(v < low ∨ high < v) ∧ ¬ v ∈ (mlookup st.seen name).getD [] ∧
      st1 = { st with
        seen := mupdate st.seen name (v :: (mlookup st.seen name).getD []),
        bounds := mupdate st.bounds name
          (logConstraint (mlookup st.bounds name) low high v) } := by
  by_cases hr : v < low ∨ high < v
  · rw [checkNumber_range_fail hr] at h
    exact absurd h (by simp)
  · by_cases hdup : v ∈ (mlookup st.seen name).getD []
    · rcases checkNumber_unique_dup hdup with he | hrange
      · rw [he] at h
        exact absurd h (by simp)
      · exact absurd hrange hr
    · rw [checkNumber_unique_ok hr hdup, Except.ok.injEq] at h
      exact ⟨hr, hdup, h.symm⟩

theorem checkAll_ok_spec (name : String) (low high : Int) :
    ∀ (vs : List Int) (st st1 : RState),
      checkAll name low high vs st = .ok st1 →
      vs.Nodup ∧ (∀ v ∈ vs, low ≤ v ∧ v ≤ high) ∧
        ∀ v ∈ vs, ¬ v ∈ (mlookup st.seen name).getD [] := by
  intro vs
  induction vs with
  | nil =>
    intro st st1 _
    exact ⟨List.nodup_nil, fun v hv => absurd hv (List.not_mem_nil v),
      fun v hv => absurd hv (List.not_mem_nil v)⟩
  | cons v vs ih =>
    intro st st1 h
    rw [checkAll] at h
    cases hc : checkNumber .unique name low high v st with
    | error e =>
      rw [hc] at h
      exact Except.noConfusion h
    | ok stmid =>
      rw [hc] at h
      have h2 : checkAll name low high vs stmid = .ok st1 := h
      obtain ⟨hr, hfresh, hstmid⟩ := checkNumber_unique_ok_inv hc
      obtain ⟨hnd, hrange, hfr⟩ := ih stmid st1 h2
      subst hstmid
      have hlook : mlookup (mupdate st.seen name (v :: (mlookup st.seen name).getD []))
          name = some (v :: (mlookup st.seen name).getD []) :=
        mlookup_mupdate_self _ _ _
      refine ⟨?_, ?_, ?_⟩
      · refine List.nodup_cons.mpr ⟨?_, hnd⟩
        intro hvm
        exact hfr v hvm (by rw [hlook]; exact List.mem_cons_self _ _)
      · intro w hw
        rcases List.mem_cons.mp hw with rfl | hwm
        · exact ⟨by omega, by omega⟩
        · exact hrange w hwm
      · intro w hw
        rcases List.mem_cons.mp hw with rfl | hwm
        · exact hfresh
        · intro hx
          exact hfr w hwm (by rw [hlook]; exact List.mem_cons_of_mem _ hx)

/-- C6: a Unique-tagged read sequence over one name that does not
terminate with WA yields pairwise distinct in-range values, and Unique
integer vector generation of `count ≤ high - low + 1` values produces
`count` pairwise distinct values in `[low, high]` (permutation crop in
the dense regime, rejection sampling otherwise). -/
theorem C6_uniqueness (name : String) (low high lo2 hi2 : Int) (vs : List Int)
    (st st1 : RState) (fuel count : Nat) (r : Rng) (ws : List Int) (r1 : Rng)
    (hread : checkAll name low high vs st = .ok st1)
    (hlh : lo2 ≤ hi2) (hcnt : (count : Int) ≤ hi2 - lo2 + 1)
    (hgen : genNumbersInt fuel .unique count lo2 hi2 r = some (ws, r1)) :
    vs.Nodup ∧ (∀ v ∈ vs, low ≤ v ∧ v ≤ high) ∧
      ws.length = count ∧ ws.Nodup ∧ ∀ w ∈ ws, lo2 ≤ w ∧ w ≤ hi2 := by
  obtain ⟨h1, h2, -⟩ := checkAll_ok_spec name low high vs st st1 hread
  obtain ⟨h3, h4, h5⟩ := genNumbersInt_unique_spec hlh hcnt hgen
  exact ⟨h1, h2, h3, h4, h5⟩

/-- C6 witness: reading `[3,4]` uniquely over `[1,10]` succeeds with both
values recorded, and generating 2 Unique values over `[1,2]` with the
all-zeros engine yields `[2,1]`. -/
theorem C6_uniqueness_witness :
    checkAll "n" 1 10 [3, 4] ⟨[], [], [], []⟩ =
      .ok ⟨[], [("n", [4, 3])], [], [("n", ⟨3, 4, 1, 10, false, false⟩)]⟩ ∧
    (1 : Int) ≤ 2 ∧ ((2 : Nat) : Int) ≤ 2 - 1 + 1 ∧
    genNumbersInt 8 .unique 2 1 2 ⟨fun _ => 0, 0⟩ = some ([2, 1], ⟨fun _ => 0, 1⟩) ∧
    ([3, 4] : List Int).Nodup ∧ (∀ v ∈ ([3, 4] : List Int), 1 ≤ v ∧ v ≤ 10) ∧
    ([2, 1] : List Int).length = 2 ∧ ([2, 1] : List Int).Nodup ∧
    ∀ w ∈ ([2, 1] : List Int), 1 ≤ w ∧ w ≤ 2 :=
  ⟨rfl, by decide, by decide, rfl,
    C6_uniqueness "n" 1 10 1 2 [3, 4] ⟨[], [], [], []⟩
      ⟨[], [("n", [4, 3])], [], [("n", ⟨3, 4, 1, 10, false, false⟩)]⟩
      8 2 ⟨fun _ => 0, 0⟩ [2, 1] ⟨fun _ => 0, 1⟩ rfl (by decide) (by decide) rfl⟩

/-- C8 counterexample: seed-injectivity fails.  The program consisting of
a single `newline()` call writes `"\n"` whatever the engine holds, so the
distinct seeds 0 and 1 produce identical output. -/
theorem C8_determinism_counterexample :
    (0 : Nat) ≠ 1 ∧
    genOutput 1 [Cmd.newline] 0 = some ['\n'] ∧
    genOutput 1 [Cmd.newline] 1 = some ['\n'] :=
  ⟨by decide, rfl, rfl⟩

/-- C8 (amended): the generator is a pure function of the caller program
and the seed, so runs with equal seeds write byte-identical output; the
converse (distinct seeds give distinct outputs) does not hold. -/
theorem C8_determinism (fuel : Nat) (P : List Cmd) (s1 s2 : Nat) (h : s1 = s2) :
    genOutput fuel P s1 = genOutput fuel P s2 := by
  rw [h]

/-- C8 witness: the single-newline program at seed 0. -/
theorem C8_determinism_witness :
    (0 : Nat) = 0 ∧ genOutput 1 [Cmd.newline] 0 = genOutput 1 [Cmd.newline] 0 :=
  ⟨rfl, C8_determinism 1 [Cmd.newline] 0 0 rfl⟩

/-- C9 counterexample: instance 0 performs a Unique read of `("n", 3)`
from a fresh state; the same read then performed through instance 1 fails,
because the other instance's read is visible in the shared map. -/
theorem C9_instance_counterexample :
    checkNumberInst 0 .unique "n" 1 10 3 ⟨[], [], [], []⟩ =
      .ok ⟨[], [("n", [3])], [], [("n", ⟨3, 3, 1, 10, false, false⟩)]⟩ ∧
    checkNumberInst 1 .unique "n" 1 10 3
      ⟨[], [("n", [3])], [], [("n", ⟨3, 3, 1, 10, false, false⟩)]⟩ = .error () :=
  ⟨rfl, rfl⟩

/-- C9 (amended): the per-name uniqueness state is shared across
instances: after any instance's successful Unique read of `(name, v)`,
the same read through any instance — the same or another — fails. -/
theorem C9_statics_shared (i j : Nat) (name : String) (low high v : Int)
    (st st1 : RState)
    (h : checkNumberInst i .unique name low high v st = .ok st1) :
    checkNumberInst j .unique name low high v st1 = .error () := by
  obtain ⟨hr, hfresh, hst1⟩ := checkNumber_unique_ok_inv h
  subst hst1
  have hdup : v ∈ (mlookup ({ st with
      seen := mupdate st.seen name (v :: (mlookup st.seen name).getD []),
      bounds := mupdate st.bounds name
        (logConstraint (mlookup st.bounds name) low high v) } : RState).seen
      name).getD [] := by
    show v ∈ (mlookup (mupdate st.seen name (v :: (mlookup st.seen name).getD []))
      name).getD []
    rw [mlookup_mupdate_self]
    exact List.mem_cons_self _ _
  rcases checkNumber_unique_dup hdup with he | hrange
  · exact he
  · exact absurd hrange hr

/-- C9 witness: instances 0 and 1 over name `"m"` and value 7. -/
theorem C9_statics_shared_witness :
    checkNumberInst 0 .unique "m" 1 10 7 ⟨[], [], [], []⟩ =
      .ok ⟨[], [("m", [7])], [], [("m", ⟨7, 7, 1, 10, false, false⟩)]⟩ ∧
    checkNumberInst 1 .unique "m" 1 10 7
      ⟨[], [("m", [7])], [], [("m", ⟨7, 7, 1, 10, false, false⟩)]⟩ = .error () :=
  ⟨rfl, C9_statics_shared 0 1 "m" 1 10 7 ⟨[], [], [], []⟩
    ⟨[], [("m", [7])], [], [("m", ⟨7, 7, 1, 10, false, false⟩)]⟩ rfl⟩

theorem set_space_change_fields {fl : DiffFlags}
    (hsc : fl.space_change_sensitive = false) (r : DiffRes) (e g : String) :
    (set_space_change fl r e g).verdict = r.verdict ∧
    (set_space_change fl r e g).case_change = r.case_change := by
  unfold set_space_change
  cases hm : r.space_change with
  | some m => exact ⟨rfl, rfl⟩
  | none =>
    dsimp only
    rw [hsc]
    exact ⟨rfl, rfl⟩

theorem set_case_change_verdict {fl : DiffFlags} {r : DiffRes} (e g : String)
    (hInv : fl.case_sensitive = true → r.case_change ≠ none → r.verdict = retWA) :
    (set_case_change fl r e g).verdict =
      (if fl.case_sensitive = true then retWA else r.verdict) := by
  unfold set_case_change
  cases hm : r.case_change with
  | some m =>
    dsimp only
    by_cases hcs : fl.case_sensitive = true
    · rw [if_pos hcs]
      exact hInv hcs (by rw [hm]; simp)
    · rw [if_neg hcs]
  | none =>
    dsimp only

theorem finalize_verdict (r : DiffRes) : (finalize r).verdict = r.verdict := by
  unfold finalize
  by_cases hv : r.verdict = retAC
  · rw [if_pos hv]
  · rw [if_neg hv]

theorem trailJury_words {fl : DiffFlags}
    (hsc : fl.space_change_sensitive = false) :
    ∀ (js : List (List Char)) (r : DiffRes),
      (trailJury fl js r).verdict =
        wverdict fl.case_sensitive (js.filter (fun x => ! isSpaceTok x)) []
          r.verdict := by
  intro js
  induction js with
  | nil =>
    intro r
    exact finalize_verdict r
  | cons j js ih =>
    intro r
    rw [trailJury]
    by_cases hsp : isSpaceTok j = true
    · rw [if_pos hsp, ih, (set_space_change_fields hsc r _ _).1,
        List.filter_cons_of_neg (by rw [hsp]; decide)]
    · rw [if_neg hsp,
        List.filter_cons_of_pos (by rw [show isSpaceTok j = false from
          Bool.eq_false_iff.mpr hsp]; rfl)]
      rfl

theorem trailTeam_words_nil {fl : DiffFlags}
    (hsc : fl.space_change_sensitive = false) :
    ∀ (ts : List (List Char)) (r : DiffRes),
      (trailTeam fl [] ts r).verdict =
        wverdict fl.case_sensitive [] (ts.filter (fun x => ! isSpaceTok x))
          r.verdict := by
  intro ts
  induction ts with
  | nil =>
    intro r
    exact finalize_verdict r
  | cons t ts ih =>
    intro r
    rw [trailTeam]
    by_cases hsp : isSpaceTok t = true
    · rw [if_pos hsp, ih, (set_space_change_fields hsc r _ _).1,
        List.filter_cons_of_neg (by rw [hsp]; decide)]
    · rw [if_neg hsp,
        List.filter_cons_of_pos (by rw [show isSpaceTok t = false from
          Bool.eq_false_iff.mpr hsp]; rfl)]
      rfl

theorem mainLoop_diag (fl : DiffFlags) (fc : FloatCmp) :
    ∀ (fuel : Nat) (js : List (List Char)) (r : DiffRes),
      js.length < fuel →
      mainLoop fl fc fuel js js r = finalize r := by
  intro fuel
  induction fuel with
  | zero =>
    intro js r h
    exact absurd h (by omega)
  | succ n ih =>
    intro js r h
    cases js with
    | nil => rfl
    | cons j js =>
      simp only [mainLoop, if_true]
      exact ih js r (by simp only [List.length_cons] at h; omega)

theorem mainLoop_words {fl : DiffFlags} {fc : FloatCmp}
    (hsc : fl.space_change_sensitive = false) (hcf : fl.compare_floats = false) :
    ∀ (fuel : Nat) (js ts : List (List Char)) (r : DiffRes),
      js.length + ts.length < fuel →
      (fl.case_sensitive = true → r.case_change ≠ none → r.verdict = retWA) →
      (mainLoop fl fc fuel js ts r).verdict =
        wverdict fl.case_sensitive (js.filter (fun x => ! isSpaceTok x))
          (ts.filter (fun x => ! isSpaceTok x)) r.verdict := by
  intro fuel
  induction fuel with
  | zero =>
    intro js ts r h hInv
    exact absurd h (by omega)
  | succ n ih =>
    intro js ts r h hInv
    cases js with
    | nil =>
      simp only [mainLoop]
      rw [trailTeam_words_nil hsc]
      rfl
    | cons j js2 =>
      cases ts with
      | nil =>
        simp only [mainLoop]
        rw [show trailTeam fl (j :: js2) [] r = trailJury fl (j :: js2) r from rfl,
          trailJury_words hsc]
        rfl
      | cons t ts2 =>
        simp only [mainLoop]
        by_cases hjt : j = t
        · rw [if_pos hjt]
          rw [ih js2 ts2 r (by simp only [List.length_cons] at h ⊢; omega) hInv]
          subst hjt
          by_cases hsp : isSpaceTok j = true
          · rw [List.filter_cons_of_neg (by rw [hsp]; decide),
              List.filter_cons_of_neg (by rw [hsp]; decide)]
          · rw [List.filter_cons_of_pos (by rw [show isSpaceTok j = false from
                Bool.eq_false_iff.mpr hsp]; rfl),
              List.filter_cons_of_pos (by rw [show isSpaceTok j = false from
                Bool.eq_false_iff.mpr hsp]; rfl)]
            rw [wverdict, if_pos rfl]
        · rw [if_neg hjt]
          by_cases hsp : (isSpaceTok j || isSpaceTok t) = true
          · rw [if_pos hsp]
            have hfields := set_space_change_fields hsc r (formatted j) (formatted t)
            have hInv2 : fl.case_sensitive = true →
                (set_space_change fl r (formatted j) (formatted t)).case_change ≠ none →
                (set_space_change fl r (formatted j) (formatted t)).verdict = retWA := by
              intro hcs hcc
              rw [hfields.1]
              rw [hfields.2] at hcc
              exact hInv hcs hcc
            by_cases hj : isSpaceTok j = true
            · by_cases ht : isSpaceTok t = true
              · rw [if_pos hj, if_pos ht]
                rw [ih js2 ts2 _ (by simp only [List.length_cons] at h ⊢; omega) hInv2]
                rw [hfields.1,
                  List.filter_cons_of_neg (by rw [hj]; decide),
                  List.filter_cons_of_neg (by rw [ht]; decide)]
              · rw [if_pos hj, if_neg ht]
                rw [ih js2 (t :: ts2) _
                  (by simp only [List.length_cons] at h ⊢; omega) hInv2]
                rw [hfields.1,
                  show List.filter (fun x => ! isSpaceTok x) (j :: js2) =
                    List.filter (fun x => ! isSpaceTok x) js2 from
                    List.filter_cons_of_neg (by rw [hj]; decide)]
            · by_cases ht : isSpaceTok t = true
              · rw [if_neg hj, if_pos ht]
                rw [ih (j :: js2) ts2 _
                  (by simp only [List.length_cons] at h ⊢; omega) hInv2]
                rw [hfields.1,
                  show List.filter (fun x => ! isSpaceTok x) (t :: ts2) =
                    List.filter (fun x => ! isSpaceTok x) ts2 from
                    List.filter_cons_of_neg (by rw [ht]; decide)]
              · exfalso
                rw [Bool.or_eq_true] at hsp
                rcases hsp with hx | hx
                · exact hj hx
                · exact ht hx
          · rw [if_neg hsp]
            have hsp2 := hsp
            rw [Bool.or_eq_true] at hsp2
            push_neg at hsp2
            have hjw : isSpaceTok j = false := Bool.eq_false_iff.mpr hsp2.1
            have htw : isSpaceTok t = false := Bool.eq_false_iff.mpr hsp2.2
            rw [show (fl.compare_floats && isFloatTok fc j && isFloatTok fc t) = false by
              rw [hcf, Bool.false_and, Bool.false_and]]
            simp only [Bool.false_eq_true, if_false]
            rw [List.filter_cons_of_pos (by rw [hjw]; rfl),
              List.filter_cons_of_pos (by rw [htw]; rfl)]
            by_cases hci : ciEqual j t = true
            · rw [if_pos hci]
              have hInv3 : fl.case_sensitive = true →
                  (set_case_change fl r (formatted j) (formatted t)).case_change ≠ none →
                  (set_case_change fl r (formatted j) (formatted t)).verdict = retWA := by
                intro hcs _
                rw [set_case_change_verdict _ _ hInv, if_pos hcs]
              rw [ih js2 ts2 _ (by simp only [List.length_cons] at h ⊢; omega) hInv3]
              rw [set_case_change_verdict _ _ hInv]
              rw [wverdict, if_neg hjt, if_pos hci]
            · rw [if_neg hci]
              rw [wverdict, if_neg hjt, if_neg hci]
              rfl

/-! ## Claims C7 and C10 -/

/-- C7 counterexample: removing the whitespace run between two tokens can
change the verdict even with `space_change_sensitive` unset.  Against the
jury answer `"1 2"`, the team output `"1 2"` is accepted but `"12"` (the
separating space removed) is rejected: the merged run is one token and
differs from the jury token. -/
theorem C7_whitespace_counterexample :
    (check ⟨false, false, false⟩ ⟨fun _ => false, fun _ _ => false, fun _ _ => ""⟩
      ['1', ' ', '2'] ['1', ' ', '2']).verdict = retAC ∧
    (check ⟨false, false, false⟩ ⟨fun _ => false, fun _ _ => false, fun _ _ => ""⟩
      ['1', ' ', '2'] ['1', '2']).verdict = retWA ∧
    retAC ≠ retWA := by
  exact ⟨by decide, by decide, by decide⟩

/-- C7 (amended): with `space_change_sensitive` unset and no float
tolerance configured, the verdict is a function of the word sequences (the
whitespace-token-free token lists): team outputs with equal words — equal
up to inserting or removing whitespace runs that leave the words intact —
receive the same verdict. -/
theorem C7_whitespace_invariance (fl : DiffFlags) (fc : FloatCmp)
    (ans t1 t2 : List Char)
    (hsc : fl.space_change_sensitive = false) (hcf : fl.compare_floats = false)
    (hw : dvWords t1 = dvWords t2) :
    (check fl fc ans t1).verdict = (check fl fc ans t2).verdict := by
  unfold check
  rw [mainLoop_words hsc hcf _ _ _ _ (by omega)
    (fun _ hcc => absurd rfl hcc)]
  rw [mainLoop_words hsc hcf _ _ _ _ (by omega)
    (fun _ hcc => absurd rfl hcc)]
  unfold dvWords at hw
  rw [hw]

/-- C7 witness: jury `"a"`, team outputs `"a "` and `" a"` (same word,
different whitespace) both get verdict 42. -/
theorem C7_whitespace_invariance_witness :
    (⟨false, false, false⟩ : DiffFlags).space_change_sensitive = false ∧
    (⟨false, false, false⟩ : DiffFlags).compare_floats = false ∧
    dvWords ['a', ' '] = dvWords [' ', 'a'] ∧
    (check ⟨false, false, false⟩ ⟨fun _ => false, fun _ _ => false, fun _ _ => ""⟩
        ['a'] ['a', ' ']).verdict =
      (check ⟨false, false, false⟩ ⟨fun _ => false, fun _ _ => false, fun _ _ => ""⟩
        ['a'] [' ', 'a']).verdict :=
  ⟨rfl, rfl, by decide,
    C7_whitespace_invariance ⟨false, false, false⟩
      ⟨fun _ => false, fun _ _ => false, fun _ _ => ""⟩
      ['a'] ['a', ' '] [' ', 'a'] rfl rfl (by decide)⟩

/-- C10: byte-identical team output is accepted for every flag
combination and every float layer: the result is verdict 42 with message
`"ok"` and no case-change or space-change observation recorded. -/
theorem C10_exact_match (fl : DiffFlags) (fc : FloatCmp) (s : List Char) :
    check fl fc s s = ⟨"ok", none, none, retAC⟩ := by
  unfold check
  rw [mainLoop_diag fl fc _ _ _ (by omega)]
  rfl

end BAPC
